import Mathlib

/-!
Verification development for the Scalar Evolution (SE) analysis of the
SPIRV-Tools optimizer.  The SE engine itself (node kinds, builder,
simplifier, node store) is modelled from the specification, since only its
exhaustive test file is available; the test file's expectations are used to
pin down the behaviour at every point the specification leaves open.
-/

/-- Modelled from the spec: `SENode`, a symbolic scalar expression; one of a
closed set of kinds (Constant, ValueUnknown, Add, Multiply, Negative,
RecurrentAddExpr, CanNotCompute).  A recurrence carries the loop it belongs
to; `Add`/`Multiply` are n-ary. -/
inductive SENode where
  | constant (v : Int)
  | valueUnknown (vid : Nat)
  | add (cs : List SENode)
  | multiply (cs : List SENode)
  | negative (c : SENode)
  | recurrent (loop : Nat) (coeff offset : SENode)
  | canNotCompute
deriving Repr

namespace SEModel

mutual
def nodeBEq : SENode → SENode → Bool
  | .constant v, .constant w => v == w
  | .valueUnknown i, .valueUnknown j => i == j
  | .add cs, .add ds => listBEq cs ds
  | .multiply cs, .multiply ds => listBEq cs ds
  | .negative c, .negative d => nodeBEq c d
  | .recurrent l a b, .recurrent m c d => l == m && nodeBEq a c && nodeBEq b d
  | .canNotCompute, .canNotCompute => true
  | _, _ => false
def listBEq : List SENode → List SENode → Bool
  | [], [] => true
  | c :: cs, d :: ds => nodeBEq c d && listBEq cs ds
  | _, _ => false
end

mutual
theorem nodeBEq_iff : ∀ a b : SENode, nodeBEq a b = true ↔ a = b
  | .constant v, b => by cases b <;> simp [nodeBEq]
  | .valueUnknown i, b => by cases b <;> simp [nodeBEq]
  | .add cs, b => by
      cases b <;> simp [nodeBEq]
      exact listBEq_iff cs _
  | .multiply cs, b => by
      cases b <;> simp [nodeBEq]
      exact listBEq_iff cs _
  | .negative c, b => by
      cases b <;> simp [nodeBEq]
      exact nodeBEq_iff c _
  | .recurrent l a c, b => by
      cases b <;> simp [nodeBEq]
      rw [nodeBEq_iff, nodeBEq_iff]
      tauto
  | .canNotCompute, b => by cases b <;> simp [nodeBEq]
theorem listBEq_iff : ∀ cs ds : List SENode, listBEq cs ds = true ↔ cs = ds
  | [], ds => by cases ds <;> simp [listBEq]
  | c :: cs, ds => by
      cases ds <;> simp [listBEq]
      rw [nodeBEq_iff, listBEq_iff]
end

instance : DecidableEq SENode := fun a b =>
  decidable_of_iff (nodeBEq a b = true) (nodeBEq_iff a b)

/-- Injective encoding of integers into naturals. -/
def encInt : Int → Nat
  | .ofNat n => Nat.pair 0 n
  | .negSucc n => Nat.pair 1 n

mutual
/-- Injective encoding of SE nodes into naturals; its numeric order serves
as the fixed total order used to canonicalize commutative operand lists. -/
def enc : SENode → Nat
  | .constant v => Nat.pair 0 (encInt v)
  | .valueUnknown i => Nat.pair 1 i
  | .add cs => Nat.pair 2 (encList cs)
  | .multiply cs => Nat.pair 3 (encList cs)
  | .negative c => Nat.pair 4 (enc c)
  | .recurrent l a b => Nat.pair 5 (Nat.pair l (Nat.pair (enc a) (enc b)))
  | .canNotCompute => Nat.pair 6 0
def encList : List SENode → Nat
  | [] => 0
  | c :: cs => Nat.pair (enc c) (encList cs) + 1
end

mutual
/-- Whether a node syntactically contains a recurrence over loop `L`; used
as the loop-invariance test of the simplifier's distribution rule. -/
def containsLoop (L : Nat) : SENode → Bool
  | .recurrent m a b => m == L || containsLoop L a || containsLoop L b
  | .add cs => containsLoopList L cs
  | .multiply cs => containsLoopList L cs
  | .negative c => containsLoop L c
  | _ => false
def containsLoopList (L : Nat) : List SENode → Bool
  | [] => false
  | c :: cs => containsLoop L c || containsLoopList L cs
end

/-- Reduction of an integer to the 32-bit wraparound signed representative
in `[-2^31, 2^31)`, matching the fold semantics of the source's constants. -/
def norm32 (k : Int) : Int := (k + 2147483648) % 4294967296 - 2147483648

/-- A linear form: a folded constant plus a list of (atom, coefficient)
terms, the atoms being interned canonical nodes kept strictly sorted by
their encoding. -/
structure Lin where
  c : Int
  ts : List (SENode × Int)
deriving Repr

/-- Normal form of a computable SE expression: a constant, plus atom terms,
plus one per-loop recurrence coefficient (a linear form) for each loop the
expression varies in.  The value is `c + Σ coeff·atom + Σ_L iter(L)·ls(L)`;
recurrence offsets are absorbed into the base, which is what lets
same-loop recurrences merge and cancel. -/
structure Poly where
  c : Int
  ts : List (SENode × Int)
  ls : List (Nat × Lin)
deriving Repr

def zeroLin : Lin := ⟨0, []⟩

def zeroP : Poly := ⟨0, [], []⟩

def Lin.isZero (a : Lin) : Bool := a.c == 0 && a.ts.isEmpty

def Poly.isConst (p : Poly) : Bool := p.ts.isEmpty && p.ls.isEmpty

/-- Insert one term into a sorted term list, folding coefficients of equal
atoms with 32-bit wraparound and dropping terms that cancel to zero. -/
def insTerm (A : SENode) (k : Int) : List (SENode × Int) → List (SENode × Int)
  | [] => [(A, k)]
  | (B, m) :: rest =>
    if enc A < enc B then (A, k) :: (B, m) :: rest
    else if enc B < enc A then (B, m) :: insTerm A k rest
    else
      if norm32 (m + k) = 0 then rest else (B, norm32 (m + k)) :: rest

def addTerms (t1 t2 : List (SENode × Int)) : List (SENode × Int) :=
  t2.foldl (fun acc t => insTerm t.1 t.2 acc) t1

def scaleTerms (k : Int) : List (SENode × Int) → List (SENode × Int)
  | [] => []
  | (A, m) :: rest =>
    if norm32 (k * m) = 0 then scaleTerms k rest
    else (A, norm32 (k * m)) :: scaleTerms k rest

def addLin (a b : Lin) : Lin := ⟨norm32 (a.c + b.c), addTerms a.ts b.ts⟩

def scaleLin (k : Int) (a : Lin) : Lin := ⟨norm32 (k * a.c), scaleTerms k a.ts⟩

/-- Insert one loop-recurrence coefficient into a sorted per-loop list,
merging same-loop recurrences by adding their coefficients and collapsing
a recurrence whose coefficient cancels to zero. -/
def insLoop (L : Nat) (cl : Lin) : List (Nat × Lin) → List (Nat × Lin)
  | [] => [(L, cl)]
  | (M, dm) :: rest =>
    if L < M then (L, cl) :: (M, dm) :: rest
    else if M < L then (M, dm) :: insLoop L cl rest
    else
      if (addLin dm cl).isZero then rest else (M, addLin dm cl) :: rest

def addLoops (l1 l2 : List (Nat × Lin)) : List (Nat × Lin) :=
  l2.foldl (fun acc e => insLoop e.1 e.2 acc) l1

def scaleLoops (k : Int) : List (Nat × Lin) → List (Nat × Lin)
  | [] => []
  | (M, dm) :: rest =>
    if (scaleLin k dm).isZero then scaleLoops k rest
    else (M, scaleLin k dm) :: scaleLoops k rest

/-- Pointwise sum of two normal forms. -/
def addPoly (p q : Poly) : Poly :=
  ⟨norm32 (p.c + q.c), addTerms p.ts q.ts, addLoops p.ls q.ls⟩

/-- Scaling of a normal form by an integer constant (affine scaling of every
recurrence, per the spec's multiply-distribution rule). -/
def scalePoly (k : Int) (p : Poly) : Poly :=
  ⟨norm32 (k * p.c), scaleTerms k p.ts, scaleLoops k p.ls⟩

/-- View of a canonical node as constant-factor times atomic factors; used
when an unresolvable (non-affine) product is flattened into one n-ary
multiply, per the spec's commutative-flattening rule. -/
def mulConstStep (a : Int) : SENode → Int
  | .constant v => norm32 (a * v)
  | _ => a

def isConstNode : SENode → Bool
  | .constant _ => true
  | _ => false

def factorize : SENode → Int × List SENode
  | .constant v => (norm32 v, [])
  | .negative x => (norm32 (-(factorize x).1), (factorize x).2)
  | .multiply l => (l.foldl mulConstStep 1, l.filter (fun c => !isConstNode c))
  | n => (1, [n])

def insF (f : SENode) : List SENode → List SENode
  | [] => [f]
  | g :: rest => if enc f ≤ enc g then f :: g :: rest else g :: insF f rest

def addFs (l1 l2 : List SENode) : List SENode := l2.foldl (fun acc f => insF f acc) l1

def factorsOfAtom (A : SENode) : List SENode :=
  match A with
  | .multiply fs => fs
  | _ => [A]

/-- Render one (atom, coefficient) term as a canonical node: coefficient 1
is the atom itself, -1 wraps it in Negative, and any other coefficient
becomes a flattened Multiply with the constant merged into the factor
list in canonical order. -/
def termNode (t : SENode × Int) : SENode :=
  if t.2 = 1 then t.1
  else if t.2 = -1 then .negative t.1
  else .multiply (insF (.constant t.2) (factorsOfAtom t.1))

def linChildren (c : Int) (ts : List (SENode × Int)) : List SENode :=
  (if c = 0 then [] else [SENode.constant c]) ++ ts.map termNode

/-- Render a loop-free linear form as a canonical node. -/
def reifyLin (c : Int) (ts : List (SENode × Int)) : SENode :=
  match ts with
  | [] => .constant c
  | [t] => if c = 0 then termNode t else .add [.constant c, termNode t]
  | _ => .add (linChildren c ts)

/-- Render a normal form as a canonical node.  A recurrence absorbs every
part of the base that is invariant with respect to its loop into its
offset (the spec's add-distribution rule); parts that do mention the loop
stay beside the recurrence in a plain Add. -/
def reifyGo (c : Int) (ts : List (SENode × Int)) : List (Nat × Lin) → SENode
  | [] => reifyLin c ts
  | (L, cl) :: rest =>
    let vts := ts.filter (fun t => containsLoop L t.1)
    let its := ts.filter (fun t => !containsLoop L t.1)
    let offN := reifyGo c its rest
    let recN := SENode.recurrent L (reifyLin cl.c cl.ts) offN
    match vts with
    | [] => recN
    | _ => .add (recN :: vts.map termNode)

def reify (p : Poly) : SENode := reifyGo p.c p.ts p.ls

def addAll : List Poly → Poly
  | [] => zeroP
  | p :: ps => ps.foldl addPoly p

/-- Combine the normal forms of a Multiply's children: all-constant
products fold (constant-folding rule), a constant times a single non-
constant child distributes (affine scaling), and a product of two or more
non-constant children is non-affine and is left as one flattened opaque
multiply atom. -/
def mulAll (ps : List Poly) : Poly :=
  let cs := ps.filter (fun p => p.isConst)
  let os := ps.filter (fun p => !p.isConst)
  let k := cs.foldl (fun a p => norm32 (a * p.c)) 1
  match os with
  | [] => ⟨k, [], []⟩
  | [p] => scalePoly k p
  | _ =>
    let fps := os.map (fun p => factorize (reify p))
    let k2 := fps.foldl (fun a fp => norm32 (a * fp.1)) k
    let fs := fps.foldl (fun a fp => addFs a fp.2) []
    if k2 = 0 then zeroP else ⟨0, [(.multiply fs, k2)], []⟩

mutual
/-- Modelled from the spec: the core of `SimplifyExpression`.  Bottom-up
normalization of a node into the linear normal form; `none` is the
absorbing `CanNotCompute` outcome.  A recurrence whose analyzed coefficient
is itself loop-variant is not an affine recurrence and yields
`CanNotCompute`; a recurrence with zero coefficient collapses to its
offset. -/
def norm : SENode → Option Poly
  | .constant v => some ⟨norm32 v, [], []⟩
  | .valueUnknown i => some ⟨0, [(.valueUnknown i, 1)], []⟩
  | .add cs => (normList cs).map addAll
  | .multiply cs => (normList cs).map mulAll
  | .negative c => (norm c).map (scalePoly (-1))
  | .recurrent L a b =>
    match norm a, norm b with
    | some pa, some pb =>
      if pa.ls.isEmpty then
        if pa.c = 0 ∧ pa.ts.isEmpty then some pb
        else some (addPoly pb ⟨0, [], [(L, ⟨pa.c, pa.ts⟩)]⟩)
      else none
    | _, _ => none
  | .canNotCompute => none
def normList : List SENode → Option (List Poly)
  | [] => some []
  | c :: cs =>
    match norm c, normList cs with
    | some p, some ps => some (p :: ps)
    | _, _ => none
end

/-- Modelled from the spec: `SimplifyExpression(node) -> SENode`, the
idempotent canonicalizing rewrite (absorption, constant folding,
flattening and canonical ordering, recurrence distribution over Add and
Multiply, negation pushing, structural cancellation). -/
def SimplifyExpression (n : SENode) : SENode :=
  match norm n with
  | some p => reify p
  | none => .canNotCompute

/-- Modelled from the spec: `CreateAddNode` builds an unsimplified
composite node. -/
def CreateAddNode (a b : SENode) : SENode := .add [a, b]

/-- Modelled from the spec: `CreateNegativeNode` builds an unsimplified
negation. -/
def CreateNegativeNode (a : SENode) : SENode := .negative a

/-- Modelled from the spec: `CreateMultiplyNode` builds an unsimplified
product. -/
def CreateMultiplyNode (a b : SENode) : SENode := .multiply [a, b]

/-- Modelled from the spec: `CreateSubtraction a b` is represented as
`Add(a, Negative(b))`. -/
def CreateSubtraction (a b : SENode) : SENode := .add [a, .negative b]

/-- Modelled from the spec: the node store's `Intern`: look the candidate up
by structural content and return the existing canonical instance's index,
or register the candidate as canonical.  The store is the list of
registered nodes; an index into it is the model of a node pointer. -/
def intern (s : List SENode) (n : SENode) : List SENode × Nat :=
  if n ∈ s then (s, s.indexOf n) else (s ++ [n], s.length)

/-- Modelled from the spec: one SSA instruction as seen by the Builder:
integer constants, add/sub/mul, a loop-header phi (with its entry and
back-edge operands), and opaque instructions (loads and anything else). -/
inductive Inst where
  | icst (v : Int)
  | iadd (a b : Nat)
  | isub (a b : Nat)
  | imul (a b : Nat)
  | iphi (loop : Nat) (init : Nat) (back : Nat)
  | iload
  | iother
deriving Repr, DecidableEq

/-- The builder folds negation of an integer constant immediately (the
test file observes a Constant(-1) coefficient on an unsimplified
down-counting recurrence). -/
def negConst (n : SENode) : SENode :=
  match n with
  | .constant v => .constant (-v)
  | n => .negative n

/-- Modelled from the spec: `AnalyzeInstruction(valueId) -> SENode`.
Dispatch on the defining instruction: constants become Constant, add/sub/
mul build composite nodes (subtraction as Add with a negated operand), a
loop-header phi is pattern-matched against the `phi ± invariant step`
shape (yielding a RecurrentAddExpr, or CanNotCompute when the step is
loop-variant), and any other opcode becomes ValueUnknown.  `fuel` bounds
the def-use recursion depth. -/
def AnalyzeInstruction (P : Nat → Option Inst) : Nat → Nat → SENode
  | 0, _ => .canNotCompute
  | fuel + 1, vid =>
    match P vid with
    | some (.icst v) => .constant v
    | some (.iadd a b) => .add [AnalyzeInstruction P fuel a, AnalyzeInstruction P fuel b]
    | some (.isub a b) =>
        .add [AnalyzeInstruction P fuel a, .negative (AnalyzeInstruction P fuel b)]
    | some (.imul a b) => .multiply [AnalyzeInstruction P fuel a, AnalyzeInstruction P fuel b]
    | some (.iphi L init back) =>
      match P back with
      | some (.iadd x y) =>
        if x = vid then
          let step := AnalyzeInstruction P fuel y
          if containsLoop L step then .canNotCompute
          else .recurrent L step (AnalyzeInstruction P fuel init)
        else if y = vid then
          let step := AnalyzeInstruction P fuel x
          if containsLoop L step then .canNotCompute
          else .recurrent L step (AnalyzeInstruction P fuel init)
        else .canNotCompute
      | some (.isub x y) =>
        if x = vid then
          let step := AnalyzeInstruction P fuel y
          if containsLoop L step then .canNotCompute
          else .recurrent L (negConst step) (AnalyzeInstruction P fuel init)
        else .canNotCompute
      | _ => .canNotCompute
    | some .iload => .valueUnknown vid
    | some .iother => .valueUnknown vid
    | none => .valueUnknown vid

end SEModel

namespace SEModel

theorem norm32_lb (k : Int) : -2147483648 ≤ norm32 k := by
  unfold norm32
  omega

theorem norm32_ub (k : Int) : norm32 k < 2147483648 := by
  unfold norm32
  omega

theorem norm32_emod (k : Int) : (norm32 k) % 4294967296 = k % 4294967296 := by
  unfold norm32
  omega

theorem norm32_eq_iff {a b : Int} :
    norm32 a = norm32 b ↔ a % 4294967296 = b % 4294967296 := by
  unfold norm32
  omega

theorem norm32_idem (a : Int) : norm32 (norm32 a) = norm32 a :=
  norm32_eq_iff.mpr (norm32_emod a)

theorem norm32_add_left (a b : Int) : norm32 (norm32 a + b) = norm32 (a + b) := by
  rw [norm32_eq_iff, Int.add_emod, norm32_emod, ← Int.add_emod]

theorem norm32_add_right (a b : Int) : norm32 (a + norm32 b) = norm32 (a + b) := by
  rw [norm32_eq_iff, Int.add_emod, norm32_emod, ← Int.add_emod]

theorem norm32_mul_left (a b : Int) : norm32 (norm32 a * b) = norm32 (a * b) := by
  rw [norm32_eq_iff, Int.mul_emod, norm32_emod, ← Int.mul_emod]

theorem norm32_mul_right (a b : Int) : norm32 (a * norm32 b) = norm32 (a * b) := by
  rw [norm32_eq_iff, Int.mul_emod, norm32_emod, ← Int.mul_emod]

theorem norm32_zero : norm32 0 = 0 := by decide

theorem norm32_one : norm32 1 = 1 := by decide

theorem norm32_fix_of_range {a : Int} (h1 : -2147483648 ≤ a) (h2 : a < 2147483648) :
    norm32 a = a := by
  unfold norm32
  omega

theorem norm32_fixes (a : Int) (h : norm32 a = a) :
    -2147483648 ≤ a ∧ a < 2147483648 := by
  rw [← h]
  exact ⟨norm32_lb a, norm32_ub a⟩

theorem norm32_inj_of_fix {a b : Int} (ha : norm32 a = a) (hb : norm32 b = b)
    (h : a % 4294967296 = b % 4294967296) : a = b := by
  rw [← ha, ← hb]
  exact norm32_eq_iff.mpr h

theorem norm32_self_neg (k : Int) : norm32 (k + norm32 (-k)) = 0 := by
  rw [norm32_add_right]
  simp [norm32_zero]

theorem norm32_neg_zero_iff {k : Int} : norm32 (-k) = 0 ↔ norm32 k = 0 := by
  unfold norm32
  omega

theorem norm32_neg_swap {a b : Int} (h : norm32 a = 0) : norm32 (-a + b) = norm32 b := by
  rw [norm32_eq_iff]
  unfold norm32 at h
  omega

end SEModel

namespace SEModel

theorem encInt_inj : ∀ a b : Int, encInt a = encInt b → a = b := by
  intro a b h
  cases a <;> cases b <;> simp [encInt] at h <;> simp [h]

mutual
theorem enc_inj : ∀ a b : SENode, enc a = enc b → a = b
  | .constant v, b => by
    cases b <;> simp [enc]
    exact fun h => encInt_inj _ _ h
  | .valueUnknown i, b => by
    cases b <;> simp [enc]
  | .add cs, b => by
    cases b <;> simp [enc]
    exact fun h => encList_inj _ _ h
  | .multiply cs, b => by
    cases b <;> simp [enc]
    exact fun h => encList_inj _ _ h
  | .negative c, b => by
    cases b <;> simp [enc]
    exact fun h => enc_inj _ _ h
  | .recurrent l a c, b => by
    cases b <;> simp [enc]
    intro h1 h2 h3
    exact ⟨h1, enc_inj _ _ h2, enc_inj _ _ h3⟩
  | .canNotCompute, b => by
    cases b <;> simp [enc]
theorem encList_inj : ∀ cs ds : List SENode, encList cs = encList ds → cs = ds
  | [], ds => by cases ds <;> simp [encList]
  | c :: cs, ds => by
    cases ds with
    | nil => simp [encList]
    | cons d ds =>
      intro h
      simp only [encList, Nat.add_right_cancel_iff, Nat.pair_eq_pair] at h
      rw [enc_inj _ _ h.1, encList_inj _ _ h.2]
end

end SEModel

namespace SEModel

/-- Factors of an opaque (non-affine) product are canonical non-constant
nodes of leaf, sum, or recurrence shape. -/
def ShapeF : SENode → Prop := fun f =>
  match f with
  | .valueUnknown _ => True
  | .add _ => True
  | .recurrent _ _ _ => True
  | _ => False

def FactorOK (f : SENode) : Prop :=
  ShapeF f ∧ ∃ q, norm f = some q ∧ reify q = f ∧ q.isConst = false

def FSorted (fs : List SENode) : Prop := fs.Pairwise (fun a b => enc a ≤ enc b)

/-- Atoms of the linear normal form are either opaque value leaves or
flattened opaque products of at least two canonically sorted factors. -/
def AtomOK : SENode → Prop := fun A =>
  match A with
  | .valueUnknown _ => True
  | .multiply fs => 2 ≤ fs.length ∧ FSorted fs ∧ ∀ f ∈ fs, FactorOK f
  | _ => False

def WTerm (t : SENode × Int) : Prop := norm32 t.2 = t.2 ∧ t.2 ≠ 0 ∧ AtomOK t.1

def TSorted (ts : List (SENode × Int)) : Prop :=
  ts.Pairwise (fun a b => enc a.1 < enc b.1)

def WTerms (ts : List (SENode × Int)) : Prop := (∀ t ∈ ts, WTerm t) ∧ TSorted ts

def WLin (l : Lin) : Prop := norm32 l.c = l.c ∧ WTerms l.ts

def KSorted (ls : List (Nat × Lin)) : Prop := ls.Pairwise (fun a b => a.1 < b.1)

def WLoops (ls : List (Nat × Lin)) : Prop :=
  (∀ e ∈ ls, WLin e.2 ∧ e.2.isZero = false) ∧ KSorted ls

def WP (p : Poly) : Prop := norm32 p.c = p.c ∧ WTerms p.ts ∧ WLoops p.ls

/-- Coefficient lookup by atom encoding; absent atoms have coefficient 0. -/
def tlook : List (SENode × Int) → Nat → Int
  | [], _ => 0
  | (A, k) :: rest, e => if enc A = e then k else tlook rest e

theorem tlook_zero_of_lt {l : List (SENode × Int)} {e : Nat}
    (h : ∀ x ∈ l, e < enc x.1) : tlook l e = 0 := by
  induction l with
  | nil => rfl
  | cons t rest ih =>
    have h1 := h t (by simp)
    simp only [tlook]
    rw [if_neg (by omega)]
    exact ih (fun x hx => h x (by simp [hx]))

theorem tlook_norm {ts : List (SENode × Int)} (h : ∀ t ∈ ts, WTerm t) (e : Nat) :
    norm32 (tlook ts e) = tlook ts e := by
  induction ts with
  | nil => exact norm32_zero
  | cons t rest ih =>
    obtain ⟨A, k⟩ := t
    simp only [tlook]
    by_cases he : enc A = e
    · rw [if_pos he]
      exact (h (A, k) (by simp)).1
    · rw [if_neg he]
      exact ih (fun x hx => h x (by simp [hx]))

theorem insTerm_mem_enc {A : SENode} {k : Int} {ts : List (SENode × Int)} :
    ∀ x ∈ insTerm A k ts, enc x.1 = enc A ∨ x ∈ ts := by
  induction ts with
  | nil =>
    intro x hx
    simp only [insTerm, List.mem_singleton] at hx
    left
    simp [hx]
  | cons t rest ih =>
    obtain ⟨B, m⟩ := t
    intro x hx
    rcases Nat.lt_trichotomy (enc A) (enc B) with h1 | h1 | h1
    · simp only [insTerm, if_pos h1, List.mem_cons] at hx
      rcases hx with h | h | h
      · left; simp [h]
      · right; simp [h]
      · right; simp [h]
    · have hAB : A = B := enc_inj _ _ h1
      subst hAB
      simp only [insTerm, if_neg (lt_irrefl (enc A))] at hx
      by_cases h3 : norm32 (m + k) = 0
      · rw [if_pos h3] at hx
        right; simp [hx]
      · rw [if_neg h3] at hx
        simp only [List.mem_cons] at hx
        rcases hx with h | h
        · left; simp [h]
        · right; simp [h]
    · simp only [insTerm, if_neg (by omega : ¬enc A < enc B), if_pos h1,
        List.mem_cons] at hx
      rcases hx with h | h
      · right; simp [h]
      · rcases ih x h with h2 | h2
        · left; exact h2
        · right; simp [h2]

theorem insTerm_wf {A : SENode} {k : Int} {ts : List (SENode × Int)}
    (h : WTerms ts) (hk : norm32 k = k) (hk0 : k ≠ 0) (hA : AtomOK A) :
    WTerms (insTerm A k ts) := by
  induction ts with
  | nil =>
    constructor
    · intro t ht
      simp only [insTerm, List.mem_singleton] at ht
      subst ht
      exact ⟨hk, hk0, hA⟩
    · simp [insTerm, TSorted]
  | cons t rest ih =>
    obtain ⟨B, m⟩ := t
    obtain ⟨hw, hs⟩ := h
    have hBb : ∀ x ∈ rest, enc B < enc x.1 := (List.pairwise_cons.mp hs).1
    have hsr : TSorted rest := (List.pairwise_cons.mp hs).2
    have hwr : WTerms rest := ⟨fun x hx => hw x (by simp [hx]), hsr⟩
    have hihm := ih hwr
    rcases Nat.lt_trichotomy (enc A) (enc B) with h1 | h1 | h1
    · constructor
      · intro x hx
        simp only [insTerm, if_pos h1, List.mem_cons] at hx
        rcases hx with h | h
        · subst h; exact ⟨hk, hk0, hA⟩
        · exact hw x (by simpa using h)
      · simp only [insTerm, if_pos h1, TSorted]
        refine List.pairwise_cons.mpr ⟨?_, hs⟩
        intro x hx
        show enc A < enc x.1
        simp only [List.mem_cons] at hx
        rcases hx with h | h
        · subst h; exact h1
        · have := hBb x h; omega
    · have hAB : A = B := enc_inj _ _ h1
      subst hAB
      by_cases h3 : norm32 (m + k) = 0
      · simp only [insTerm, if_neg (lt_irrefl (enc A)), if_pos h3]
        exact hwr
      · simp only [insTerm, if_neg (lt_irrefl (enc A)), if_neg h3]
        constructor
        · intro x hx
          simp only [List.mem_cons] at hx
          rcases hx with h | h
          · subst h
            exact ⟨norm32_idem _, h3, (hw (A, m) (by simp)).2.2⟩
          · exact hw x (by simp [h])
        · exact List.pairwise_cons.mpr ⟨hBb, hsr⟩
    · constructor
      · intro x hx
        simp only [insTerm, if_neg (by omega : ¬enc A < enc B), if_pos h1,
          List.mem_cons] at hx
        rcases hx with h | h
        · subst h; exact hw (B, m) (by simp)
        · exact hihm.1 x h
      · simp only [insTerm, if_neg (by omega : ¬enc A < enc B), if_pos h1, TSorted]
        refine List.pairwise_cons.mpr ⟨?_, hihm.2⟩
        intro x hx
        show enc B < enc x.1
        rcases insTerm_mem_enc x hx with h | h
        · omega
        · exact hBb x h

theorem tlook_insTerm {A : SENode} {k : Int} {ts : List (SENode × Int)}
    (h : TSorted ts) (hk : norm32 k = k) (e : Nat) :
    tlook (insTerm A k ts) e =
      if enc A = e then norm32 (tlook ts e + k) else tlook ts e := by
  induction ts with
  | nil =>
    simp only [insTerm, tlook]
    by_cases he : enc A = e
    · rw [if_pos he, if_pos he]
      simp [hk]
    · rw [if_neg he, if_neg he]
  | cons t rest ih =>
    obtain ⟨B, m⟩ := t
    have hBb : ∀ x ∈ rest, enc B < enc x.1 := (List.pairwise_cons.mp h).1
    have hsr : TSorted rest := (List.pairwise_cons.mp h).2
    rcases Nat.lt_trichotomy (enc A) (enc B) with h1 | h1 | h1
    · simp only [insTerm, if_pos h1, tlook]
      by_cases he : enc A = e
      · rw [if_pos he, if_pos he, if_neg (by omega),
          tlook_zero_of_lt (fun x hx => by have := hBb x hx; omega)]
        simp [hk]
      · rw [if_neg he, if_neg he]
    · have hAB : A = B := enc_inj _ _ h1
      subst hAB
      by_cases h3 : norm32 (m + k) = 0
      · simp only [insTerm, if_neg (lt_irrefl (enc A)), if_pos h3, tlook]
        by_cases he : enc A = e
        · rw [if_pos he, if_pos he,
            tlook_zero_of_lt (e := e) (fun x hx => by have := hBb x hx; omega)]
          omega
        · rw [if_neg he, if_neg he]
      · simp only [insTerm, if_neg (lt_irrefl (enc A)), if_neg h3, tlook]
        by_cases he : enc A = e
        · rw [if_pos he, if_pos he, if_pos he]
        · rw [if_neg he, if_neg he, if_neg he]
    · simp only [insTerm, if_neg (by omega : ¬enc A < enc B), if_pos h1, tlook]
      by_cases he : enc B = e
      · rw [if_pos he, if_pos he, if_neg (by omega)]
      · rw [if_neg he, if_neg he, ih hsr]

end SEModel

namespace SEModel

theorem tlook_cons_self {A : SENode} {k : Int} {r : List (SENode × Int)} :
    tlook ((A, k) :: r) (enc A) = k := by simp [tlook]

theorem tlook_cons_ne {A : SENode} {k : Int} {r : List (SENode × Int)} {e : Nat}
    (h : ¬enc A = e) : tlook ((A, k) :: r) e = tlook r e := by simp [tlook, h]

theorem tlook_ext {t1 t2 : List (SENode × Int)} (h1 : WTerms t1) (h2 : WTerms t2)
    (h : ∀ e, tlook t1 e = tlook t2 e) : t1 = t2 := by
  induction t1 generalizing t2 with
  | nil =>
    cases t2 with
    | nil => rfl
    | cons t r2 =>
      obtain ⟨B, m⟩ := t
      have hB := h (enc B)
      rw [tlook_cons_self] at hB
      exact absurd hB.symm (h2.1 (B, m) (by simp)).2.1
  | cons t r1 ih =>
    obtain ⟨A, k⟩ := t
    have hAb : ∀ x ∈ r1, enc A < enc x.1 := (List.pairwise_cons.mp h1.2).1
    have h1r : WTerms r1 := ⟨fun x hx => h1.1 x (by simp [hx]), (List.pairwise_cons.mp h1.2).2⟩
    cases t2 with
    | nil =>
      have hA := h (enc A)
      rw [tlook_cons_self] at hA
      exact absurd hA (h1.1 (A, k) (by simp)).2.1
    | cons s r2 =>
      obtain ⟨B, m⟩ := s
      have hBb : ∀ x ∈ r2, enc B < enc x.1 := (List.pairwise_cons.mp h2.2).1
      have h2r : WTerms r2 := ⟨fun x hx => h2.1 x (by simp [hx]), (List.pairwise_cons.mp h2.2).2⟩
      rcases Nat.lt_trichotomy (enc A) (enc B) with hc | hc | hc
      · have hA := h (enc A)
        rw [tlook_cons_self, tlook_cons_ne (show ¬enc B = enc A by omega),
          tlook_zero_of_lt (fun x hx => by have := hBb x hx; omega)] at hA
        exact absurd hA (h1.1 (A, k) (by simp)).2.1
      · have hAB : A = B := enc_inj _ _ hc
        subst hAB
        have hA := h (enc A)
        rw [tlook_cons_self, tlook_cons_self] at hA
        subst hA
        have hr : r1 = r2 := by
          apply ih h1r h2r
          intro e
          by_cases he : enc A = e
          · subst he
            rw [tlook_zero_of_lt (fun x hx => by have := hAb x hx; omega),
              tlook_zero_of_lt (fun x hx => by have := hBb x hx; omega)]
          · have he2 := h e
            rw [tlook_cons_ne he, tlook_cons_ne he] at he2
            exact he2
        rw [hr]
      · have hB := h (enc B)
        rw [tlook_cons_self, tlook_cons_ne (show ¬enc A = enc B by omega),
          tlook_zero_of_lt (fun x hx => by have := hAb x hx; omega)] at hB
        exact absurd hB.symm (h2.1 (B, m) (by simp)).2.1

theorem addTerms_cons (t1 : List (SENode × Int)) (A : SENode) (k : Int)
    (r2 : List (SENode × Int)) :
    addTerms t1 ((A, k) :: r2) = addTerms (insTerm A k t1) r2 := rfl

theorem addTerms_wf {t1 t2 : List (SENode × Int)} (h1 : WTerms t1)
    (h2 : ∀ t ∈ t2, WTerm t) : WTerms (addTerms t1 t2) := by
  induction t2 generalizing t1 with
  | nil => exact h1
  | cons t r2 ih =>
    obtain ⟨A, k⟩ := t
    rw [addTerms_cons]
    have hw := h2 (A, k) (by simp)
    exact ih (insTerm_wf h1 hw.1 hw.2.1 hw.2.2) (fun x hx => h2 x (by simp [hx]))

theorem tlook_addTerms {t1 t2 : List (SENode × Int)} (h1 : WTerms t1) (h2 : WTerms t2)
    (e : Nat) : tlook (addTerms t1 t2) e = norm32 (tlook t1 e + tlook t2 e) := by
  induction t2 generalizing t1 with
  | nil =>
    simp only [addTerms, List.foldl_nil, tlook]
    rw [Int.add_zero]
    exact (tlook_norm h1.1 e).symm
  | cons t r2 ih =>
    obtain ⟨A, k⟩ := t
    have hw := h2.1 (A, k) (by simp)
    have hBb : ∀ x ∈ r2, enc A < enc x.1 := (List.pairwise_cons.mp h2.2).1
    have h2r : WTerms r2 := ⟨fun x hx => h2.1 x (by simp [hx]), (List.pairwise_cons.mp h2.2).2⟩
    rw [addTerms_cons, ih (insTerm_wf h1 hw.1 hw.2.1 hw.2.2) h2r,
      tlook_insTerm h1.2 hw.1]
    by_cases he : enc A = e
    · subst he
      rw [if_pos rfl, tlook_cons_self,
        tlook_zero_of_lt (l := r2) (fun x hx => by have := hBb x hx; omega),
        Int.add_zero, norm32_idem]
    · rw [if_neg he, tlook_cons_ne he]

theorem scaleTerms_mem {k : Int} {ts : List (SENode × Int)} :
    ∀ x ∈ scaleTerms k ts, ∃ m, (x.1, m) ∈ ts ∧ x.2 = norm32 (k * m) := by
  induction ts with
  | nil => intro x hx; simp [scaleTerms] at hx
  | cons t rest ih =>
    obtain ⟨A, m⟩ := t
    intro x hx
    simp only [scaleTerms] at hx
    by_cases h : norm32 (k * m) = 0
    · rw [if_pos h] at hx
      obtain ⟨m2, hm2, he⟩ := ih x hx
      exact ⟨m2, by simp [hm2], he⟩
    · rw [if_neg h] at hx
      simp only [List.mem_cons] at hx
      rcases hx with hx | hx
      · exact ⟨m, by simp [hx], by simp [hx]⟩
      · obtain ⟨m2, hm2, he⟩ := ih x hx
        exact ⟨m2, by simp [hm2], he⟩

theorem scaleTerms_wf {ts : List (SENode × Int)} (h : WTerms ts) (k : Int) :
    WTerms (scaleTerms k ts) := by
  induction ts with
  | nil => exact ⟨by simp [scaleTerms], by simp [scaleTerms, TSorted]⟩
  | cons t rest ih =>
    obtain ⟨A, m⟩ := t
    have hAb : ∀ x ∈ rest, enc A < enc x.1 := (List.pairwise_cons.mp h.2).1
    have hr : WTerms rest := ⟨fun x hx => h.1 x (by simp [hx]), (List.pairwise_cons.mp h.2).2⟩
    have ihr := ih hr
    simp only [scaleTerms]
    by_cases hz : norm32 (k * m) = 0
    · rw [if_pos hz]
      exact ihr
    · rw [if_neg hz]
      constructor
      · intro x hx
        simp only [List.mem_cons] at hx
        rcases hx with hx | hx
        · subst hx
          exact ⟨norm32_idem _, hz, (h.1 (A, m) (by simp)).2.2⟩
        · exact ihr.1 x hx
      · refine List.pairwise_cons.mpr ⟨?_, ihr.2⟩
        intro x hx
        show enc A < enc x.1
        obtain ⟨m2, hm2, _⟩ := scaleTerms_mem x hx
        have := hAb (x.1, m2) hm2
        exact this

theorem tlook_scaleTerms {ts : List (SENode × Int)} (h : WTerms ts) (k : Int) (e : Nat) :
    tlook (scaleTerms k ts) e = norm32 (k * tlook ts e) := by
  induction ts with
  | nil =>
    simp only [scaleTerms, tlook]
    rw [Int.mul_zero, norm32_zero]
  | cons t rest ih =>
    obtain ⟨A, m⟩ := t
    have hAb : ∀ x ∈ rest, enc A < enc x.1 := (List.pairwise_cons.mp h.2).1
    have hr : WTerms rest := ⟨fun x hx => h.1 x (by simp [hx]), (List.pairwise_cons.mp h.2).2⟩
    simp only [scaleTerms]
    by_cases hz : norm32 (k * m) = 0
    · rw [if_pos hz, ih hr]
      simp only [tlook]
      by_cases he : enc A = e
      · subst he
        rw [if_pos rfl, tlook_zero_of_lt (fun x hx => by have := hAb x hx; omega),
          Int.mul_zero, norm32_zero, hz]
      · rw [if_neg he]
    · rw [if_neg hz]
      simp only [tlook]
      by_cases he : enc A = e
      · rw [if_pos he, if_pos he]
      · rw [if_neg he, if_neg he, ih hr]

theorem scaleTerms_neg_ne_nil {ts : List (SENode × Int)} (h : WTerms ts) (hne : ts ≠ []) :
    scaleTerms (-1) ts ≠ [] := by
  cases ts with
  | nil => exact absurd rfl hne
  | cons t rest =>
    obtain ⟨A, m⟩ := t
    have hw := h.1 (A, m) (by simp)
    have hz : norm32 (-1 * m) ≠ 0 := by
      rw [show (-1 : Int) * m = -m by ring]
      intro hc
      exact hw.2.1 (hw.1 ▸ norm32_neg_zero_iff.mp hc ▸ hw.1.symm ▸ rfl)
    simp only [scaleTerms, if_neg hz]
    exact List.cons_ne_nil _ _

end SEModel

namespace SEModel

theorem isZero_iff {a : Lin} : a.isZero = true ↔ a = zeroLin := by
  obtain ⟨c, ts⟩ := a
  simp [Lin.isZero, zeroLin, List.isEmpty_iff]

theorem zeroLin_wf : WLin zeroLin :=
  ⟨norm32_zero, fun t ht => absurd ht (List.not_mem_nil t), List.Pairwise.nil⟩

theorem addTerms_nil_left {ts : List (SENode × Int)} (h : WTerms ts) :
    addTerms [] ts = ts := by
  apply tlook_ext (addTerms_wf ⟨by simp, List.Pairwise.nil⟩ h.1) h
  intro e
  rw [tlook_addTerms ⟨by simp, List.Pairwise.nil⟩ h,
    show tlook [] e = 0 from rfl, Int.zero_add]
  exact tlook_norm h.1 e

theorem addLin_wf {a b : Lin} (ha : WLin a) (hb : WLin b) : WLin (addLin a b) :=
  ⟨norm32_idem _, addTerms_wf ha.2 hb.2.1⟩

theorem scaleLin_wf {a : Lin} (ha : WLin a) (k : Int) : WLin (scaleLin k a) :=
  ⟨norm32_idem _, scaleTerms_wf ha.2 k⟩

theorem addLin_zero_right {a : Lin} (ha : WLin a) : addLin a zeroLin = a := by
  obtain ⟨c, ts⟩ := a
  simp [addLin, zeroLin, addTerms]
  exact ha.1

theorem addLin_zero_left {a : Lin} (ha : WLin a) : addLin zeroLin a = a := by
  obtain ⟨c, ts⟩ := a
  simp only [addLin, zeroLin]
  congr 1
  · rw [Int.zero_add]; exact ha.1
  · exact addTerms_nil_left ha.2

theorem scaleLin_zero (k : Int) : scaleLin k zeroLin = zeroLin := by
  simp [scaleLin, zeroLin, scaleTerms, norm32_zero]

theorem scaleLin_neg_nonzero {a : Lin} (ha : WLin a) (hz : a.isZero = false) :
    (scaleLin (-1) a).isZero = false := by
  obtain ⟨c, ts⟩ := a
  have hc1 : norm32 c = c := ha.1
  simp only [Lin.isZero, scaleLin, Bool.and_eq_false_iff] at hz ⊢
  rcases hz with h | h
  · left
    simp only [beq_eq_false_iff_ne] at h ⊢
    intro hcon
    rw [show (-1 : Int) * c = -c by ring] at hcon
    exact h (by rw [← hc1]; exact norm32_neg_zero_iff.mp hcon)
  · right
    have hne : ts ≠ [] := by
      intro hh
      subst hh
      simp [List.isEmpty_iff] at h
    have := scaleTerms_neg_ne_nil ha.2 hne
    simp [List.isEmpty_iff]
    exact this

/-- Lookup of the recurrence coefficient of one loop; absent loops have the
zero coefficient. -/
def llook : List (Nat × Lin) → Nat → Lin
  | [], _ => zeroLin
  | (M, dm) :: rest, L => if M = L then dm else llook rest L

theorem llook_zero_of_lt {l : List (Nat × Lin)} {M : Nat}
    (h : ∀ x ∈ l, M < x.1) : llook l M = zeroLin := by
  induction l with
  | nil => rfl
  | cons t rest ih =>
    obtain ⟨K, dm⟩ := t
    have h1 := h (K, dm) (by simp)
    simp only [llook]
    rw [if_neg (by omega)]
    exact ih (fun x hx => h x (by simp [hx]))

theorem llook_cons_self {K : Nat} {dm : Lin} {r : List (Nat × Lin)} :
    llook ((K, dm) :: r) K = dm := by simp [llook]

theorem llook_cons_ne {K : Nat} {dm : Lin} {r : List (Nat × Lin)} {M : Nat}
    (h : ¬K = M) : llook ((K, dm) :: r) M = llook r M := by simp [llook, h]

theorem llook_wf {ls : List (Nat × Lin)} (h : ∀ e ∈ ls, WLin e.2) (M : Nat) :
    WLin (llook ls M) := by
  induction ls with
  | nil => exact zeroLin_wf
  | cons t rest ih =>
    obtain ⟨K, dm⟩ := t
    simp only [llook]
    by_cases he : K = M
    · rw [if_pos he]; exact h (K, dm) (by simp)
    · rw [if_neg he]; exact ih (fun x hx => h x (by simp [hx]))

theorem llook_ext {l1 l2 : List (Nat × Lin)} (h1 : WLoops l1) (h2 : WLoops l2)
    (h : ∀ M, llook l1 M = llook l2 M) : l1 = l2 := by
  induction l1 generalizing l2 with
  | nil =>
    cases l2 with
    | nil => rfl
    | cons t r2 =>
      obtain ⟨K, dm⟩ := t
      have hB := h K
      rw [llook_cons_self] at hB
      have := (h2.1 (K, dm) (by simp)).2
      rw [← hB] at this
      simp [llook, zeroLin, Lin.isZero] at this
  | cons t r1 ih =>
    obtain ⟨K, dm⟩ := t
    have hAb : ∀ x ∈ r1, K < x.1 := (List.pairwise_cons.mp h1.2).1
    have h1r : WLoops r1 := ⟨fun x hx => h1.1 x (by simp [hx]), (List.pairwise_cons.mp h1.2).2⟩
    cases l2 with
    | nil =>
      have hA := h K
      rw [llook_cons_self] at hA
      have := (h1.1 (K, dm) (by simp)).2
      rw [hA] at this
      simp [llook, zeroLin, Lin.isZero] at this
    | cons s r2 =>
      obtain ⟨J, em⟩ := s
      have hBb : ∀ x ∈ r2, J < x.1 := (List.pairwise_cons.mp h2.2).1
      have h2r : WLoops r2 := ⟨fun x hx => h2.1 x (by simp [hx]), (List.pairwise_cons.mp h2.2).2⟩
      rcases Nat.lt_trichotomy K J with hc | hc | hc
      · have hA := h K
        rw [llook_cons_self, llook_cons_ne (show ¬J = K by omega),
          llook_zero_of_lt (fun x hx => by have := hBb x hx; omega)] at hA
        have := (h1.1 (K, dm) (by simp)).2
        rw [hA] at this
        simp [llook, zeroLin, Lin.isZero] at this
      · subst hc
        have hA := h K
        rw [llook_cons_self, llook_cons_self] at hA
        subst hA
        have hr : r1 = r2 := by
          apply ih h1r h2r
          intro M
          by_cases he : K = M
          · subst he
            rw [llook_zero_of_lt (fun x hx => by have := hAb x hx; omega),
              llook_zero_of_lt (fun x hx => by have := hBb x hx; omega)]
          · have he2 := h M
            rw [llook_cons_ne he, llook_cons_ne he] at he2
            exact he2
        rw [hr]
      · have hB := h J
        rw [llook_cons_self, llook_cons_ne (show ¬K = J by omega),
          llook_zero_of_lt (fun x hx => by have := hAb x hx; omega)] at hB
        have := (h2.1 (J, em) (by simp)).2
        rw [← hB] at this
        simp [llook, zeroLin, Lin.isZero] at this

end SEModel

namespace SEModel

theorem insLoop_mem_key {L : Nat} {cl : Lin} {ls : List (Nat × Lin)} :
    ∀ x ∈ insLoop L cl ls, x.1 = L ∨ x ∈ ls := by
  induction ls with
  | nil =>
    intro x hx
    simp only [insLoop, List.mem_singleton] at hx
    left; simp [hx]
  | cons t rest ih =>
    obtain ⟨M, dm⟩ := t
    intro x hx
    rcases Nat.lt_trichotomy L M with h1 | h1 | h1
    · simp only [insLoop, if_pos h1, List.mem_cons] at hx
      rcases hx with h | h | h
      · left; simp [h]
      · right; simp [h]
      · right; simp [h]
    · subst h1
      simp only [insLoop, if_neg (lt_irrefl L)] at hx
      by_cases h3 : (addLin dm cl).isZero
      · rw [if_pos h3] at hx
        right; simp [hx]
      · rw [if_neg h3] at hx
        simp only [List.mem_cons] at hx
        rcases hx with h | h
        · left; simp [h]
        · right; simp [h]
    · simp only [insLoop, if_neg (by omega : ¬L < M), if_pos h1, List.mem_cons] at hx
      rcases hx with h | h
      · right; simp [h]
      · rcases ih x h with h2 | h2
        · left; exact h2
        · right; simp [h2]

theorem insLoop_wf {L : Nat} {cl : Lin} {ls : List (Nat × Lin)}
    (h : WLoops ls) (hcl : WLin cl) (hcz : cl.isZero = false) :
    WLoops (insLoop L cl ls) := by
  induction ls with
  | nil =>
    constructor
    · intro t ht
      simp only [insLoop, List.mem_singleton] at ht
      subst ht
      exact ⟨hcl, hcz⟩
    · simp [insLoop, KSorted]
  | cons t rest ih =>
    obtain ⟨M, dm⟩ := t
    obtain ⟨hw, hs⟩ := h
    have hMb : ∀ x ∈ rest, M < x.1 := (List.pairwise_cons.mp hs).1
    have hsr : KSorted rest := (List.pairwise_cons.mp hs).2
    have hwr : WLoops rest := ⟨fun x hx => hw x (by simp [hx]), hsr⟩
    have hihm := ih hwr
    rcases Nat.lt_trichotomy L M with h1 | h1 | h1
    · constructor
      · intro x hx
        simp only [insLoop, if_pos h1, List.mem_cons] at hx
        rcases hx with hh | hh
        · subst hh; exact ⟨hcl, hcz⟩
        · exact hw x (by simpa using hh)
      · simp only [insLoop, if_pos h1, KSorted]
        refine List.pairwise_cons.mpr ⟨?_, hs⟩
        intro x hx
        show L < x.1
        simp only [List.mem_cons] at hx
        rcases hx with hh | hh
        · subst hh; exact h1
        · have := hMb x hh; omega
    · subst h1
      by_cases h3 : (addLin dm cl).isZero
      · simp only [insLoop, if_neg (lt_irrefl L), if_pos h3]
        exact hwr
      · simp only [insLoop, if_neg (lt_irrefl L), if_neg h3]
        constructor
        · intro x hx
          simp only [List.mem_cons] at hx
          rcases hx with hh | hh
          · subst hh
            refine ⟨addLin_wf (hw (L, dm) (by simp)).1 hcl, by simpa using h3⟩
          · exact hw x (by simp [hh])
        · exact List.pairwise_cons.mpr ⟨hMb, hsr⟩
    · constructor
      · intro x hx
        simp only [insLoop, if_neg (by omega : ¬L < M), if_pos h1, List.mem_cons] at hx
        rcases hx with hh | hh
        · subst hh; exact hw (M, dm) (by simp)
        · exact hihm.1 x hh
      · simp only [insLoop, if_neg (by omega : ¬L < M), if_pos h1, KSorted]
        refine List.pairwise_cons.mpr ⟨?_, hihm.2⟩
        intro x hx
        show M < x.1
        rcases insLoop_mem_key x hx with hh | hh
        · omega
        · exact hMb x hh

theorem llook_insLoop {L : Nat} {cl : Lin} {ls : List (Nat × Lin)}
    (h : WLoops ls) (hcl : WLin cl) (M : Nat) :
    llook (insLoop L cl ls) M =
      if L = M then addLin (llook ls M) cl else llook ls M := by
  induction ls with
  | nil =>
    simp only [insLoop, llook]
    by_cases he : L = M
    · rw [if_pos he, if_pos he, addLin_zero_left hcl]
    · rw [if_neg he, if_neg he]
  | cons t rest ih =>
    obtain ⟨K, dm⟩ := t
    have hKb : ∀ x ∈ rest, K < x.1 := (List.pairwise_cons.mp h.2).1
    have hsr : KSorted rest := (List.pairwise_cons.mp h.2).2
    have hwr : WLoops rest := ⟨fun x hx => h.1 x (by simp [hx]), hsr⟩
    rcases Nat.lt_trichotomy L K with h1 | h1 | h1
    · simp only [insLoop, if_pos h1, llook]
      by_cases he : L = M
      · subst he
        rw [if_pos rfl, if_pos rfl, if_neg (by omega),
          llook_zero_of_lt (fun x hx => by have := hKb x hx; omega),
          addLin_zero_left hcl]
      · rw [if_neg he, if_neg he]
    · subst h1
      by_cases h3 : (addLin dm cl).isZero
      · simp only [insLoop, if_neg (lt_irrefl L), if_pos h3, llook]
        by_cases he : L = M
        · subst he
          rw [if_pos rfl, if_pos rfl,
            llook_zero_of_lt (fun x hx => by have := hKb x hx; omega)]
          exact (isZero_iff.mp h3).symm
        · rw [if_neg he, if_neg he]
      · simp only [insLoop, if_neg (lt_irrefl L), if_neg h3, llook]
        by_cases he : L = M
        · rw [if_pos he, if_pos he, if_pos he]
        · rw [if_neg he, if_neg he, if_neg he]
    · simp only [insLoop, if_neg (by omega : ¬L < K), if_pos h1, llook]
      by_cases he : K = M
      · rw [if_pos he, if_pos he, if_neg (by omega)]
      · rw [if_neg he, if_neg he, ih hwr]

theorem addLoops_cons (l1 : List (Nat × Lin)) (K : Nat) (dm : Lin)
    (r2 : List (Nat × Lin)) :
    addLoops l1 ((K, dm) :: r2) = addLoops (insLoop K dm l1) r2 := rfl

theorem addLoops_wf {l1 l2 : List (Nat × Lin)} (h1 : WLoops l1)
    (h2 : ∀ e ∈ l2, WLin e.2 ∧ e.2.isZero = false) : WLoops (addLoops l1 l2) := by
  induction l2 generalizing l1 with
  | nil => exact h1
  | cons t r2 ih =>
    obtain ⟨K, dm⟩ := t
    rw [addLoops_cons]
    have hw := h2 (K, dm) (by simp)
    exact ih (insLoop_wf h1 hw.1 hw.2) (fun x hx => h2 x (by simp [hx]))

theorem llook_addLoops {l1 l2 : List (Nat × Lin)} (h1 : WLoops l1) (h2 : WLoops l2)
    (M : Nat) : llook (addLoops l1 l2) M = addLin (llook l1 M) (llook l2 M) := by
  induction l2 generalizing l1 with
  | nil =>
    simp only [addLoops, List.foldl_nil, llook]
    exact (addLin_zero_right (llook_wf (fun e he => (h1.1 e he).1) M)).symm
  | cons t r2 ih =>
    obtain ⟨K, dm⟩ := t
    have hw := h2.1 (K, dm) (by simp)
    have hKb : ∀ x ∈ r2, K < x.1 := (List.pairwise_cons.mp h2.2).1
    have h2r : WLoops r2 := ⟨fun x hx => h2.1 x (by simp [hx]), (List.pairwise_cons.mp h2.2).2⟩
    rw [addLoops_cons, ih (insLoop_wf h1 hw.1 hw.2) h2r, llook_insLoop h1 hw.1]
    by_cases he : K = M
    · subst he
      rw [if_pos rfl, llook_cons_self,
        llook_zero_of_lt (l := r2) (fun x hx => by have := hKb x hx; omega),
        addLin_zero_right (addLin_wf (llook_wf (fun e ht => (h1.1 e ht).1) K) hw.1)]
    · rw [if_neg he, llook_cons_ne he]

theorem scaleLoops_mem {k : Int} {ls : List (Nat × Lin)} :
    ∀ x ∈ scaleLoops k ls, ∃ m, (x.1, m) ∈ ls ∧ x.2 = scaleLin k m := by
  induction ls with
  | nil => intro x hx; simp [scaleLoops] at hx
  | cons t rest ih =>
    obtain ⟨M, dm⟩ := t
    intro x hx
    simp only [scaleLoops] at hx
    by_cases h : (scaleLin k dm).isZero
    · rw [if_pos h] at hx
      obtain ⟨m2, hm2, he⟩ := ih x hx
      exact ⟨m2, by simp [hm2], he⟩
    · rw [if_neg h] at hx
      simp only [List.mem_cons] at hx
      rcases hx with hx | hx
      · exact ⟨dm, by simp [hx], by simp [hx]⟩
      · obtain ⟨m2, hm2, he⟩ := ih x hx
        exact ⟨m2, by simp [hm2], he⟩

theorem scaleLoops_wf {ls : List (Nat × Lin)} (h : WLoops ls) (k : Int) :
    WLoops (scaleLoops k ls) := by
  induction ls with
  | nil => exact ⟨by simp [scaleLoops], by simp [scaleLoops, KSorted]⟩
  | cons t rest ih =>
    obtain ⟨M, dm⟩ := t
    have hMb : ∀ x ∈ rest, M < x.1 := (List.pairwise_cons.mp h.2).1
    have hr : WLoops rest := ⟨fun x hx => h.1 x (by simp [hx]), (List.pairwise_cons.mp h.2).2⟩
    have ihr := ih hr
    simp only [scaleLoops]
    by_cases hz : (scaleLin k dm).isZero
    · rw [if_pos hz]
      exact ihr
    · rw [if_neg hz]
      constructor
      · intro x hx
        simp only [List.mem_cons] at hx
        rcases hx with hx | hx
        · subst hx
          exact ⟨scaleLin_wf (h.1 (M, dm) (by simp)).1 k, by simpa using hz⟩
        · exact ihr.1 x hx
      · refine List.pairwise_cons.mpr ⟨?_, ihr.2⟩
        intro x hx
        show M < x.1
        obtain ⟨m2, hm2, _⟩ := scaleLoops_mem x hx
        exact hMb (x.1, m2) hm2

theorem llook_scaleLoops {ls : List (Nat × Lin)} (h : WLoops ls) (k : Int) (M : Nat) :
    llook (scaleLoops k ls) M = scaleLin k (llook ls M) := by
  induction ls with
  | nil =>
    simp only [scaleLoops, llook]
    exact (scaleLin_zero k).symm
  | cons t rest ih =>
    obtain ⟨K, dm⟩ := t
    have hKb : ∀ x ∈ rest, K < x.1 := (List.pairwise_cons.mp h.2).1
    have hr : WLoops rest := ⟨fun x hx => h.1 x (by simp [hx]), (List.pairwise_cons.mp h.2).2⟩
    simp only [scaleLoops]
    by_cases hz : (scaleLin k dm).isZero
    · rw [if_pos hz, ih hr]
      by_cases he : K = M
      · subst he
        rw [llook_cons_self, llook_zero_of_lt (fun x hx => by have := hKb x hx; omega),
          scaleLin_zero]
        exact (isZero_iff.mp hz).symm
      · rw [llook_cons_ne he]
    · rw [if_neg hz]
      by_cases he : K = M
      · subst he
        rw [llook_cons_self, llook_cons_self]
      · rw [llook_cons_ne he, llook_cons_ne he, ih hr]

end SEModel

namespace SEModel

theorem zeroP_wf : WP zeroP :=
  ⟨norm32_zero, ⟨fun t ht => by simp [zeroP] at ht, List.Pairwise.nil⟩,
    ⟨fun e he => by simp [zeroP] at he, List.Pairwise.nil⟩⟩

theorem addPoly_wf {p q : Poly} (hp : WP p) (hq : WP q) : WP (addPoly p q) :=
  ⟨norm32_idem _, addTerms_wf hp.2.1 hq.2.1.1, addLoops_wf hp.2.2 hq.2.2.1⟩

theorem scalePoly_wf {p : Poly} (hp : WP p) (k : Int) : WP (scalePoly k p) :=
  ⟨norm32_idem _, scaleTerms_wf hp.2.1 k, scaleLoops_wf hp.2.2 k⟩

theorem poly_ext {p q : Poly} (hp : WP p) (hq : WP q) (hc : p.c = q.c)
    (ht : ∀ e, tlook p.ts e = tlook q.ts e) (hl : ∀ M, llook p.ls M = llook q.ls M) :
    p = q := by
  obtain ⟨c1, t1, l1⟩ := p
  obtain ⟨c2, t2, l2⟩ := q
  simp only at hc ht hl
  rw [Poly.mk.injEq]
  exact ⟨hc, tlook_ext hp.2.1 hq.2.1 ht, llook_ext hp.2.2 hq.2.2 hl⟩

theorem addPoly_zero_right {p : Poly} (hp : WP p) : addPoly p zeroP = p := by
  obtain ⟨c, ts, ls⟩ := p
  simp only [addPoly, zeroP, addTerms, addLoops, List.foldl_nil]
  rw [Poly.mk.injEq]
  refine ⟨?_, rfl, rfl⟩
  rw [Int.add_zero]
  exact hp.1

theorem addPoly_zero_left {p : Poly} (hp : WP p) : addPoly zeroP p = p := by
  obtain ⟨c, ts, ls⟩ := p
  simp only [addPoly, zeroP]
  rw [Poly.mk.injEq]
  refine ⟨by rw [Int.zero_add]; exact hp.1, addTerms_nil_left hp.2.1, ?_⟩
  apply llook_ext (addLoops_wf zeroP_wf.2.2 hp.2.2.1) hp.2.2
  intro M
  rw [llook_addLoops zeroP_wf.2.2 hp.2.2, show llook zeroP.ls M = zeroLin from rfl,
    addLin_zero_left (llook_wf (fun e he => (hp.2.2.1 e he).1) M)]

theorem foldl_addPoly_wf {l : List Poly} {acc : Poly} (ha : WP acc)
    (h : ∀ p ∈ l, WP p) : WP (l.foldl addPoly acc) := by
  induction l generalizing acc with
  | nil => exact ha
  | cons p rest ih =>
    exact ih (addPoly_wf ha (h p (by simp))) (fun x hx => h x (by simp [hx]))

theorem addAll_wf {l : List Poly} (h : ∀ p ∈ l, WP p) : WP (addAll l) := by
  cases l with
  | nil => exact zeroP_wf
  | cons p rest =>
    exact foldl_addPoly_wf (h p (by simp)) (fun x hx => h x (by simp [hx]))

theorem factorize_shape {f : SENode} (h : ShapeF f) : factorize f = (1, [f]) := by
  cases f <;> simp [ShapeF] at h <;> rfl

theorem insF_mem {f : SENode} {l : List SENode} :
    ∀ x ∈ insF f l, x = f ∨ x ∈ l := by
  induction l with
  | nil => intro x hx; simp [insF] at hx; simp [hx]
  | cons g rest ih =>
    intro x hx
    simp only [insF] at hx
    by_cases h : enc f ≤ enc g
    · rw [if_pos h] at hx
      simp only [List.mem_cons] at hx
      rcases hx with h1 | h1 | h1
      · left; exact h1
      · right; simp [h1]
      · right; simp [h1]
    · rw [if_neg h] at hx
      simp only [List.mem_cons] at hx
      rcases hx with h1 | h1
      · right; simp [h1]
      · rcases ih x h1 with h2 | h2
        · left; exact h2
        · right; simp [h2]

theorem insF_sorted {f : SENode} {l : List SENode} (h : FSorted l) :
    FSorted (insF f l) := by
  induction l with
  | nil => simp [insF, FSorted]
  | cons g rest ih =>
    have hgb : ∀ x ∈ rest, enc g ≤ enc x := (List.pairwise_cons.mp h).1
    have hsr : FSorted rest := (List.pairwise_cons.mp h).2
    simp only [insF]
    by_cases hle : enc f ≤ enc g
    · rw [if_pos hle]
      refine List.pairwise_cons.mpr ⟨?_, h⟩
      intro x hx
      show enc f ≤ enc x
      simp only [List.mem_cons] at hx
      rcases hx with h1 | h1
      · subst h1; exact hle
      · have := hgb x h1; omega
    · rw [if_neg hle]
      refine List.pairwise_cons.mpr ⟨?_, ih hsr⟩
      intro x hx
      show enc g ≤ enc x
      rcases insF_mem x hx with h1 | h1
      · subst h1; omega
      · exact hgb x h1

theorem all_eq_append {f : SENode} {r : List SENode} (h : ∀ x ∈ r, x = f) :
    r ++ [f] = f :: r := by
  induction r with
  | nil => rfl
  | cons g rest ih =>
    have hg : g = f := h g (by simp)
    subst hg
    rw [List.cons_append, ih (fun x hx => h x (by simp [hx]))]

theorem insF_append {f : SENode} {l : List SENode} (hs : FSorted l)
    (h : ∀ g ∈ l, enc g ≤ enc f) : insF f l = l ++ [f] := by
  induction l with
  | nil => rfl
  | cons g rest ih =>
    have hgb : ∀ x ∈ rest, enc g ≤ enc x := (List.pairwise_cons.mp hs).1
    have hsr : FSorted rest := (List.pairwise_cons.mp hs).2
    simp only [insF]
    by_cases hle : enc f ≤ enc g
    · rw [if_pos hle]
      have hgf : g = f := enc_inj _ _ (by have := h g (by simp); omega)
      subst hgf
      have hall : ∀ x ∈ rest, x = g := by
        intro x hx
        exact (enc_inj _ _ (by have := hgb x hx; have := h x (by simp [hx]); omega)).symm
      rw [List.cons_append, all_eq_append hall]
    · rw [if_neg hle, ih hsr (fun x hx => h x (by simp [hx])), List.cons_append]

theorem foldl_insF_acc {fs : List SENode} :
    ∀ acc : List SENode, FSorted acc → FSorted fs →
      (∀ g ∈ acc, ∀ f ∈ fs, enc g ≤ enc f) →
      fs.foldl (fun a f => insF f a) acc = acc ++ fs := by
  induction fs with
  | nil => intro acc _ _ _; simp
  | cons f rest ih =>
    intro acc hacc hfs hb
    have hfb : ∀ x ∈ rest, enc f ≤ enc x := (List.pairwise_cons.mp hfs).1
    have hfr : FSorted rest := (List.pairwise_cons.mp hfs).2
    simp only [List.foldl_cons]
    rw [insF_append hacc (fun g hg => hb g hg f (by simp))]
    rw [ih (acc ++ [f]) ?_ hfr ?_]
    · simp
    · refine List.pairwise_append.mpr ⟨hacc, by simp [FSorted], ?_⟩
      intro a ha y hy2
      simp only [List.mem_singleton] at hy2
      subst hy2
      exact hb a ha _ (by simp)
    · intro g hg x hx
      rcases List.mem_append.mp hg with h1 | h1
      · exact hb g h1 x (by simp [hx])
      · simp only [List.mem_singleton] at h1
        subst h1
        exact hfb x hx

theorem foldl_insF_sorted {fs : List SENode} (h : FSorted fs) :
    fs.foldl (fun a f => insF f a) [] = fs := by
  rw [foldl_insF_acc [] (by simp [FSorted]) h (by simp)]
  rfl

end SEModel

namespace SEModel

theorem normList_cons_eq {c : SENode} {cs : List SENode} {p : Poly} {ps : List Poly}
    (h1 : norm c = some p) (h2 : normList cs = some ps) :
    normList (c :: cs) = some (p :: ps) := by
  simp [normList, h1, h2]

theorem factor_list_norm {fs : List SENode} (hf : ∀ f ∈ fs, FactorOK f) :
    ∃ qs, normList fs = some qs ∧ (∀ q ∈ qs, q.isConst = false) ∧
      qs.map (fun q => factorize (reify q)) = fs.map (fun f => ((1 : Int), [f])) := by
  induction fs with
  | nil => exact ⟨[], rfl, by simp, by simp⟩
  | cons f rest ih =>
    obtain ⟨qs', hn', hc', hm'⟩ := ih (fun x hx => hf x (by simp [hx]))
    obtain ⟨hshape, q, hnq, hrq, hcq⟩ := hf f (by simp)
    refine ⟨q :: qs', normList_cons_eq hnq hn', ?_, ?_⟩
    · intro x hx
      simp only [List.mem_cons] at hx
      rcases hx with hx | hx
      · subst hx; exact hcq
      · exact hc' x hx
    · simp only [List.map_cons, hm', hrq, factorize_shape hshape]

theorem fold_one {l : List SENode} {c : Int} (hc : norm32 c = c) :
    (l.map (fun f => ((1 : Int), [f]))).foldl (fun a fp => norm32 (a * fp.1)) c = c := by
  induction l generalizing c with
  | nil => rfl
  | cons f rest ih =>
    simp only [List.map_cons, List.foldl_cons]
    rw [show norm32 (c * 1) = c by rw [Int.mul_one]; exact hc]
    exact ih hc

theorem fold_addFs {l : List SENode} :
    (l.map (fun f => ((1 : Int), [f]))).foldl (fun a fp => addFs a fp.2) [] =
      l.foldl (fun a f => insF f a) [] := by
  rw [List.foldl_map]
  rfl

theorem atom_mul_norm {fs : List SENode} (hlen : 2 ≤ fs.length) (hsort : FSorted fs)
    (hf : ∀ f ∈ fs, FactorOK f) :
    norm (.multiply fs) = some ⟨0, [(.multiply fs, 1)], []⟩ := by
  obtain ⟨qs, hn, hc, hm⟩ := factor_list_norm hf
  have hn2 : norm (.multiply fs) = some (mulAll qs) := by
    simp [norm, hn]
  rw [hn2]
  congr 1
  have hcs : qs.filter (fun p => p.isConst) = [] :=
    List.filter_eq_nil_iff.mpr (fun q hq => by simp [hc q hq])
  have hos : qs.filter (fun p => !p.isConst) = qs :=
    List.filter_eq_self.mpr (fun q hq => by simp [hc q hq])
  have hql : qs.length = fs.length := by
    have := congrArg List.length hm
    simpa using this
  simp only [mulAll, hcs, hos, List.foldl_nil]
  obtain ⟨q1, qs1, rfl⟩ : ∃ q1 qs1, qs = q1 :: qs1 := by
    cases qs with
    | nil => simp at hql; omega
    | cons a l => exact ⟨a, l, rfl⟩
  obtain ⟨q2, qs2, rfl⟩ : ∃ q2 qs2, qs1 = q2 :: qs2 := by
    cases qs1 with
    | nil => simp at hql; omega
    | cons a l => exact ⟨a, l, rfl⟩
  simp only [hm, fold_one norm32_one, fold_addFs, foldl_insF_sorted hsort]
  rw [if_neg (by norm_num)]

end SEModel

namespace SEModel

theorem normList_insF_const {fs : List SENode} {qs : List Poly}
    (hn : normList fs = some qs) (hc : ∀ q ∈ qs, q.isConst = false) (k : Int) :
    ∃ ps, normList (insF (.constant k) fs) = some ps ∧
      ps.filter (fun p => p.isConst) = [⟨norm32 k, [], []⟩] ∧
      ps.filter (fun p => !p.isConst) = qs := by
  induction fs generalizing qs with
  | nil =>
    simp only [normList] at hn
    obtain rfl : qs = [] := by injection hn with h; exact h.symm
    refine ⟨[⟨norm32 k, [], []⟩], by simp [insF, normList, norm], ?_, ?_⟩
    · simp [List.filter, Poly.isConst]
    · simp [List.filter, Poly.isConst]
  | cons f rest ih =>
    simp only [normList] at hn
    rcases hf : norm f with _ | qf
    · rw [hf] at hn; exact absurd hn (by simp)
    rcases hr : normList rest with _ | qrest
    · rw [hf, hr] at hn; exact absurd hn (by simp)
    rw [hf, hr] at hn
    obtain rfl : qs = qf :: qrest := by injection hn with h; exact h.symm
    have hcf : qf.isConst = false := hc qf (by simp)
    have hcr : ∀ q ∈ qrest, q.isConst = false := fun q hq => hc q (by simp [hq])
    obtain ⟨ps', hn', hfc', hfo'⟩ := ih hr hcr
    simp only [insF]
    by_cases hle : enc (.constant k) ≤ enc f
    · rw [if_pos hle]
      refine ⟨⟨norm32 k, [], []⟩ :: qf :: qrest, ?_, ?_, ?_⟩
      · exact normList_cons_eq (by simp [norm]) (normList_cons_eq hf hr)
      · simp only [List.filter]
        rw [show (Poly.isConst ⟨norm32 k, [], []⟩) = true from rfl]
        simp only [List.filter, hcf]
        rw [List.filter_eq_nil_iff.mpr (fun q hq => by simp [hcr q hq])]
      · simp only [List.filter]
        rw [show (!Poly.isConst ⟨norm32 k, [], []⟩) = false from rfl]
        simp only [List.filter, hcf]
        rw [List.filter_eq_self.mpr (fun q hq => by simp [hcr q hq])]
        simp [hcf]
    · rw [if_neg hle]
      refine ⟨qf :: ps', normList_cons_eq hf hn', ?_, ?_⟩
      · simp only [List.filter, hcf, hfc']
      · simp only [List.filter, hcf, hfo']
        simp [hcf]

theorem mul_const_norm {fs : List SENode} {k : Int} (hlen : 2 ≤ fs.length)
    (hsort : FSorted fs) (hf : ∀ f ∈ fs, FactorOK f) (hk : norm32 k = k)
    (hk0 : k ≠ 0) :
    norm (.multiply (insF (.constant k) fs)) = some ⟨0, [(.multiply fs, k)], []⟩ := by
  obtain ⟨qs, hn, hc, hm⟩ := factor_list_norm hf
  obtain ⟨ps, hnp, hfc, hfo⟩ := normList_insF_const hn hc k
  have hn2 : norm (.multiply (insF (.constant k) fs)) = some (mulAll ps) := by
    simp [norm, hnp]
  rw [hn2]
  congr 1
  have hql : qs.length = fs.length := by
    have := congrArg List.length hm
    simpa using this
  simp only [mulAll, hfc, hfo, List.foldl_cons, List.foldl_nil]
  obtain ⟨q1, qs1, rfl⟩ : ∃ q1 qs1, qs = q1 :: qs1 := by
    cases qs with
    | nil => simp at hql; omega
    | cons a l => exact ⟨a, l, rfl⟩
  obtain ⟨q2, qs2, rfl⟩ : ∃ q2 qs2, qs1 = q2 :: qs2 := by
    cases qs1 with
    | nil => simp at hql; omega
    | cons a l => exact ⟨a, l, rfl⟩
  have hk1 : norm32 ((1 : Int) * norm32 k) = k := by
    rw [Int.one_mul, norm32_idem, hk]
  simp only [hk1]
  simp only [hm, fold_one hk, fold_addFs, foldl_insF_sorted hsort]
  rw [if_neg hk0]

theorem termNode_norm {A : SENode} {k : Int} (h : WTerm (A, k)) :
    norm (termNode (A, k)) = some ⟨0, [(A, k)], []⟩ := by
  obtain ⟨hk, hk0, hA⟩ := h
  by_cases h1 : k = 1
  · subst h1
    rw [show termNode (A, 1) = A from rfl]
    match A, hA with
    | .valueUnknown i, _ => rfl
    | .multiply fs, hA => exact atom_mul_norm hA.1 hA.2.1 hA.2.2
  · by_cases h2 : k = -1
    · subst h2
      rw [show termNode (A, -1) = .negative A from by simp [termNode]]
      have hbase : norm A = some ⟨0, [(A, 1)], []⟩ := by
        match A, hA with
        | .valueUnknown i, _ => rfl
        | .multiply fs, hA => exact atom_mul_norm hA.1 hA.2.1 hA.2.2
      simp only [norm, hbase, Option.map_some']
      rfl
    · rw [show termNode (A, k) = .multiply (insF (.constant k) (factorsOfAtom A)) from
        by simp [termNode, h1, h2]]
      match A, hA with
      | .valueUnknown i, _ =>
        simp only [factorsOfAtom]
        have hnl : normList [SENode.valueUnknown i] = some [⟨0, [(.valueUnknown i, 1)], []⟩] :=
          normList_cons_eq rfl rfl
        obtain ⟨ps, hnp, hfc, hfo⟩ := normList_insF_const hnl (by
          intro q hq
          simp only [List.mem_singleton] at hq
          subst hq
          rfl) k
        have hn2 : norm (.multiply (insF (.constant k) [.valueUnknown i])) =
            some (mulAll ps) := by simp [norm, hnp]
        rw [hn2]
        congr 1
        simp only [mulAll, hfc, hfo, List.foldl_cons, List.foldl_nil]
        simp only [scalePoly, scaleTerms, scaleLoops, List.foldl_nil]
        have hk1 : norm32 ((1 : Int) * norm32 k) = k := by
          rw [Int.one_mul, norm32_idem, hk]
        simp only [hk1]
        have hkk : norm32 (k * 1) = k := by rw [Int.mul_one, hk]
        rw [Poly.mk.injEq]
        refine ⟨by rw [Int.mul_zero, norm32_zero], ?_, rfl⟩
        rw [if_neg (by rw [hkk]; exact hk0), hkk]
      | .multiply fs, hA =>
        simp only [factorsOfAtom]
        exact mul_const_norm hA.1 hA.2.1 hA.2.2 hk hk0

end SEModel

namespace SEModel

theorem insTerm_front {A : SENode} {k : Int} {l : List (SENode × Int)}
    (h : ∀ x ∈ l, enc A < enc x.1) : insTerm A k l = (A, k) :: l := by
  cases l with
  | nil => rfl
  | cons t rest =>
    obtain ⟨B, m⟩ := t
    have hB := h (B, m) (by simp)
    simp only [insTerm, if_pos hB]

theorem addTerms_cons_front {A : SENode} {k : Int} {l l2 : List (SENode × Int)}
    (h : ∀ x ∈ l2, enc A < enc x.1) :
    addTerms ((A, k) :: l) l2 = (A, k) :: addTerms l l2 := by
  induction l2 generalizing l with
  | nil => rfl
  | cons t r2 ih =>
    obtain ⟨B, m⟩ := t
    have hB : enc A < enc B := h (B, m) (by simp)
    rw [addTerms_cons, addTerms_cons]
    rw [show insTerm B m ((A, k) :: l) = (A, k) :: insTerm B m l from by
      simp only [insTerm, if_neg (by omega : ¬enc B < enc A), if_pos hB]]
    exact ih (fun x hx => h x (by simp [hx]))

theorem insLoop_front {L : Nat} {cl : Lin} {rest : List (Nat × Lin)}
    (h : ∀ x ∈ rest, L < x.1) : insLoop L cl rest = (L, cl) :: rest := by
  cases rest with
  | nil => rfl
  | cons t r =>
    obtain ⟨M, dm⟩ := t
    have hM := h (M, dm) (by simp)
    simp only [insLoop, if_pos hM]

theorem filter_addTerms {ts : List (SENode × Int)} (hs : TSorted ts)
    (p : SENode × Int → Bool) :
    addTerms (ts.filter fun t => !p t) (ts.filter p) = ts := by
  induction ts with
  | nil => rfl
  | cons t rest ih =>
    have htb : ∀ x ∈ rest, enc t.1 < enc x.1 := (List.pairwise_cons.mp hs).1
    have hsr : TSorted rest := (List.pairwise_cons.mp hs).2
    by_cases hp : p t
    · rw [List.filter_cons_of_pos hp, List.filter_cons_of_neg (by simp [hp])]
      rw [addTerms_cons]
      rw [show insTerm t.1 t.2 (rest.filter fun x => !p x) = t :: rest.filter (fun x => !p x) from by
        rw [← insTerm_front (fun x hx => htb x (List.mem_of_mem_filter hx))]]
      rw [addTerms_cons_front (fun x hx => htb x (List.mem_of_mem_filter hx))]
      rw [ih hsr]
    · rw [List.filter_cons_of_neg hp, List.filter_cons_of_pos (by simp [hp])]
      rw [addTerms_cons_front (fun x hx => htb x (List.mem_of_mem_filter hx))]
      rw [ih hsr]

theorem foldl_atom_polys {l : List (SENode × Int)} :
    ∀ acc : Poly, WP acc → (∀ t ∈ l, WTerm t) →
      (l.map (fun t => (⟨0, [t], []⟩ : Poly))).foldl addPoly acc =
        ⟨acc.c, addTerms acc.ts l, acc.ls⟩ := by
  induction l with
  | nil => intro acc hacc _; rfl
  | cons t rest ih =>
    intro acc hacc hl
    simp only [List.map_cons, List.foldl_cons]
    have hstep : addPoly acc ⟨0, [t], []⟩ = ⟨acc.c, insTerm t.1 t.2 acc.ts, acc.ls⟩ := by
      obtain ⟨c, ts, ls⟩ := acc
      simp only [addPoly, addTerms, addLoops, List.foldl_cons, List.foldl_nil]
      rw [Poly.mk.injEq]
      exact ⟨by rw [Int.add_zero]; exact hacc.1, rfl, rfl⟩
    rw [hstep]
    have hwt := hl t (by simp)
    have hacc2 : WP ⟨acc.c, insTerm t.1 t.2 acc.ts, acc.ls⟩ :=
      ⟨hacc.1, insTerm_wf hacc.2.1 hwt.1 hwt.2.1 hwt.2.2, hacc.2.2⟩
    rw [ih _ hacc2 (fun x hx => hl x (by simp [hx]))]
    rw [addTerms_cons]

theorem normList_termNodes {ts : List (SENode × Int)} (h : ∀ t ∈ ts, WTerm t) :
    normList (ts.map termNode) = some (ts.map fun t => (⟨0, [t], []⟩ : Poly)) := by
  induction ts with
  | nil => rfl
  | cons t rest ih =>
    simp only [List.map_cons]
    exact normList_cons_eq
      (by rw [show termNode t = termNode (t.1, t.2) from by rfl]
          exact termNode_norm (h t (by simp)))
      (ih (fun x hx => h x (by simp [hx])))

theorem reifyLin_norm {c : Int} {ts : List (SENode × Int)} (h : WLin ⟨c, ts⟩) :
    norm (reifyLin c ts) = some ⟨c, ts, []⟩ := by
  match ts, h with
  | [], h =>
    simp only [reifyLin, norm]
    rw [show norm32 c = c from h.1]
  | [t], h =>
    simp only [reifyLin]
    by_cases hc : c = 0
    · subst hc
      rw [if_pos rfl]
      rw [show termNode t = termNode (t.1, t.2) from rfl]
      exact termNode_norm (h.2.1 t (by simp))
    · rw [if_neg hc]
      have hn1 : norm (.constant c) = some ⟨c, [], []⟩ := by
        simp only [norm]
        rw [show norm32 c = c from h.1]
      have hn2 : norm (termNode t) = some ⟨0, [t], []⟩ := by
        rw [show termNode t = termNode (t.1, t.2) from rfl]
        exact termNode_norm (h.2.1 t (by simp))
      have hnl : normList [SENode.constant c, termNode t] =
          some [⟨c, [], []⟩, ⟨0, [t], []⟩] :=
        normList_cons_eq hn1 (normList_cons_eq hn2 rfl)
      simp only [norm, hnl, Option.map_some']
      congr 1
      simp only [addAll, List.foldl_cons, List.foldl_nil]
      obtain ⟨A, k⟩ := t
      simp only [addPoly, addTerms, addLoops, List.foldl_cons, List.foldl_nil, insTerm]
      rw [Poly.mk.injEq]
      exact ⟨by rw [Int.add_zero]; exact h.1, rfl, rfl⟩
  | t1 :: t2 :: rest, h =>
    simp only [reifyLin, linChildren]
    by_cases hc : c = 0
    · subst hc
      rw [if_pos rfl]
      simp only [List.nil_append, List.map_cons]
      have hn1 : norm (termNode t1) = some ⟨0, [t1], []⟩ := by
        rw [show termNode t1 = termNode (t1.1, t1.2) from rfl]
        exact termNode_norm (h.2.1 t1 (by simp))
      have hnl := normList_termNodes (fun x hx => h.2.1 x (by simp [hx]) :
        ∀ t ∈ t2 :: rest, WTerm t)
      simp only [List.map_cons] at hnl
      have hnl2 : normList (termNode t1 :: termNode t2 :: rest.map termNode) =
          some (⟨0, [t1], []⟩ :: (t2 :: rest).map fun t => (⟨0, [t], []⟩ : Poly)) := by
        refine normList_cons_eq hn1 ?_
        simp only [List.map_cons]
        exact hnl
      simp only [norm, hnl2, Option.map_some']
      congr 1
      simp only [addAll]
      have hw1 : WP ⟨0, [t1], []⟩ := by
        refine ⟨norm32_zero, ⟨?_, ?_⟩, ⟨by simp, List.Pairwise.nil⟩⟩
        · intro y hy
          rw [List.mem_singleton] at hy
          rw [hy]
          exact h.2.1 t1 (by simp)
        · simp [TSorted]
      rw [foldl_atom_polys _ hw1 (fun x hx => h.2.1 x (by simp [hx]))]
      have hfront : addTerms [t1] (t2 :: rest) = t1 :: t2 :: rest := by
        have hb : ∀ x ∈ t2 :: rest, enc t1.1 < enc x.1 :=
          (List.pairwise_cons.mp h.2.2).1
        rw [addTerms_cons_front hb, addTerms_nil_left
          ⟨fun x hx => h.2.1 x (by simp [hx]), (List.pairwise_cons.mp h.2.2).2⟩]
      simp only [List.map_cons]
      rw [Poly.mk.injEq]
      exact ⟨rfl, hfront, rfl⟩
    · rw [if_neg hc]
      simp only [List.map_cons, List.singleton_append]
      have hn1 : norm (.constant c) = some ⟨c, [], []⟩ := by
        simp only [norm]
        rw [show norm32 c = c from h.1]
      have hnl := normList_termNodes (h.2.1 : ∀ t ∈ t1 :: t2 :: rest, WTerm t)
      simp only [List.map_cons] at hnl
      have hnl2 : normList (.constant c :: termNode t1 :: termNode t2 :: rest.map termNode) =
          some (⟨c, [], []⟩ :: (t1 :: t2 :: rest).map fun t => (⟨0, [t], []⟩ : Poly)) := by
        refine normList_cons_eq hn1 ?_
        simp only [List.map_cons]
        exact hnl
      simp only [norm, hnl2, Option.map_some']
      congr 1
      simp only [addAll]
      have hw1 : WP ⟨c, [], []⟩ :=
        ⟨h.1, ⟨by simp, List.Pairwise.nil⟩, ⟨by simp, List.Pairwise.nil⟩⟩
      rw [foldl_atom_polys _ hw1 h.2.1]
      rw [show (⟨c, [], []⟩ : Poly).ts = [] from rfl, addTerms_nil_left h.2]

end SEModel

namespace SEModel

theorem reifyGo_rec_case {c : Int} {ts : List (SENode × Int)} {L : Nat} {cl : Lin}
    {rest : List (Nat × Lin)} (hv : ts.filter (fun t => containsLoop L t.1) = []) :
    reifyGo c ts ((L, cl) :: rest) =
      .recurrent L (reifyLin cl.c cl.ts)
        (reifyGo c (ts.filter fun t => !containsLoop L t.1) rest) := by
  simp only [reifyGo]
  rw [hv]

theorem reifyGo_var_case {c : Int} {ts : List (SENode × Int)} {L : Nat} {cl : Lin}
    {rest : List (Nat × Lin)} {v : SENode × Int} {vrest : List (SENode × Int)}
    (hv : ts.filter (fun t => containsLoop L t.1) = v :: vrest) :
    reifyGo c ts ((L, cl) :: rest) =
      .add (.recurrent L (reifyLin cl.c cl.ts)
          (reifyGo c (ts.filter fun t => !containsLoop L t.1) rest)
        :: (v :: vrest).map termNode) := by
  simp only [reifyGo]
  rw [hv]

theorem lin_nonzero_cond {cl : Lin} (h : cl.isZero = false) :
    ¬(cl.c = 0 ∧ cl.ts.isEmpty = true) := by
  obtain ⟨cc, cts⟩ := cl
  intro hcon
  have h2 : Lin.isZero ⟨cc, cts⟩ = true := by
    simp only [Lin.isZero]
    rw [show cc = 0 from hcon.1]
    simp [hcon.2]
  rw [h2] at h
  cases h

theorem reifyGo_norm : ∀ (ls : List (Nat × Lin)) (c : Int) (ts : List (SENode × Int)),
    WP ⟨c, ts, ls⟩ → norm (reifyGo c ts ls) = some ⟨c, ts, ls⟩ := by
  intro ls
  induction ls with
  | nil =>
    intro c ts h
    exact reifyLin_norm ⟨h.1, h.2.1⟩
  | cons e rest ih =>
    obtain ⟨L, cl⟩ := e
    intro c ts h
    have hcl : WLin cl := (h.2.2.1 (L, cl) (by simp)).1
    have hclz : cl.isZero = false := (h.2.2.1 (L, cl) (by simp)).2
    have hLb : ∀ x ∈ rest, L < x.1 := (List.pairwise_cons.mp h.2.2.2).1
    have hrw : WLoops rest :=
      ⟨fun x hx => h.2.2.1 x (by simp [hx]), (List.pairwise_cons.mp h.2.2.2).2⟩
    have hits : WTerms (ts.filter fun t => !containsLoop L t.1) :=
      ⟨fun x hx => h.2.1.1 x (List.mem_of_mem_filter hx), h.2.1.2.filter _⟩
    have hoff : WP ⟨c, ts.filter fun t => !containsLoop L t.1, rest⟩ := ⟨h.1, hits, hrw⟩
    have hoffn := ih c _ hoff
    have hcoefn : norm (reifyLin cl.c cl.ts) = some ⟨cl.c, cl.ts, []⟩ :=
      reifyLin_norm hcl
    have hrecn : norm (.recurrent L (reifyLin cl.c cl.ts)
        (reifyGo c (ts.filter fun t => !containsLoop L t.1) rest)) =
        some ⟨c, ts.filter (fun t => !containsLoop L t.1), (L, cl) :: rest⟩ := by
      simp only [norm, hcoefn, hoffn]
      rw [if_pos (show ((⟨cl.c, cl.ts, []⟩ : Poly)).ls.isEmpty = true from rfl)]
      rw [if_neg (lin_nonzero_cond hclz)]
      congr 1
      rw [show addPoly ⟨c, ts.filter (fun t => !containsLoop L t.1), rest⟩
          ⟨0, [], [(L, ⟨cl.c, cl.ts⟩)]⟩ =
        ⟨norm32 (c + 0), ts.filter (fun t => !containsLoop L t.1), insLoop L cl rest⟩ from rfl]
      rw [Poly.mk.injEq]
      refine ⟨by rw [Int.add_zero]; exact h.1, rfl, insLoop_front hLb⟩
    rcases hv : ts.filter (fun t => containsLoop L t.1) with _ | ⟨v, vrest⟩
    · have hits_eq : ts.filter (fun t => !containsLoop L t.1) = ts := by
        apply List.filter_eq_self.mpr
        intro x hx
        have hnc := List.filter_eq_nil_iff.mp hv x hx
        simp at hnc
        simp [hnc]
      rw [reifyGo_rec_case hv, hits_eq]
      rw [hits_eq] at hrecn
      exact hrecn
    · have hvw : ∀ t ∈ v :: vrest, WTerm t := by
        intro x hx
        apply h.2.1.1
        have hmem : x ∈ ts.filter (fun t => containsLoop L t.1) := by rw [hv]; exact hx
        exact List.mem_of_mem_filter hmem
      rw [reifyGo_var_case hv]
      have hnl : normList (.recurrent L (reifyLin cl.c cl.ts)
            (reifyGo c (ts.filter fun t => !containsLoop L t.1) rest)
          :: (v :: vrest).map termNode) =
          some (⟨c, ts.filter (fun t => !containsLoop L t.1), (L, cl) :: rest⟩
            :: (v :: vrest).map fun t => (⟨0, [t], []⟩ : Poly)) :=
        normList_cons_eq hrecn (normList_termNodes hvw)
      simp only [norm, hnl, Option.map_some']
      congr 1
      simp only [addAll]
      have hacc : WP ⟨c, ts.filter (fun t => !containsLoop L t.1), (L, cl) :: rest⟩ :=
        ⟨h.1, hits, h.2.2⟩
      rw [foldl_atom_polys _ hacc hvw]
      rw [Poly.mk.injEq]
      refine ⟨rfl, ?_, rfl⟩
      rw [show (⟨c, ts.filter (fun t => !containsLoop L t.1), (L, cl) :: rest⟩ : Poly).ts =
        ts.filter (fun t => !containsLoop L t.1) from rfl]
      rw [← hv]
      exact filter_addTerms h.2.1.2 _

theorem reify_norm {p : Poly} (hp : WP p) : norm (reify p) = some p := by
  obtain ⟨c, ts, ls⟩ := p
  exact reifyGo_norm ls c ts hp

end SEModel

namespace SEModel

theorem mulConstStep_shape {f : SENode} (hf : ShapeF f) (a : Int) :
    mulConstStep a f = a := by
  cases f <;> first | rfl | simp [ShapeF] at hf

theorem isConstNode_shape {f : SENode} (hf : ShapeF f) : isConstNode f = false := by
  cases f <;> first | rfl | simp [ShapeF] at hf

theorem foldProd_noconst {fs : List SENode} (h : ∀ f ∈ fs, ShapeF f) :
    ∀ a : Int, fs.foldl mulConstStep a = a := by
  induction fs with
  | nil => intro a; rfl
  | cons f rest ih =>
    intro a
    simp only [List.foldl_cons, mulConstStep_shape (h f (by simp))]
    exact ih (fun x hx => h x (by simp [hx])) a

theorem filter_noconst {fs : List SENode} (h : ∀ f ∈ fs, ShapeF f) :
    fs.filter (fun c => !isConstNode c) = fs :=
  List.filter_eq_self.mpr (fun f hf => by simp [isConstNode_shape (h f hf)])

theorem factorize_mul_noconst {fs : List SENode} (h : ∀ f ∈ fs, ShapeF f) :
    factorize (.multiply fs) = (1, fs) := by
  simp only [factorize]
  rw [Prod.mk.injEq]
  exact ⟨foldProd_noconst h 1, filter_noconst h⟩

theorem foldProd_insF_const {fs : List SENode} {k : Int} (h : ∀ f ∈ fs, ShapeF f) :
    ∀ a : Int, (insF (.constant k) fs).foldl mulConstStep a = norm32 (a * k) := by
  induction fs with
  | nil => intro a; rfl
  | cons f rest ih =>
    intro a
    simp only [insF]
    by_cases hle : enc (.constant k) ≤ enc f
    · rw [if_pos hle]
      simp only [List.foldl_cons, show mulConstStep a (.constant k) = norm32 (a * k) from rfl]
      exact foldProd_noconst h (norm32 (a * k))
    · rw [if_neg hle]
      simp only [List.foldl_cons, mulConstStep_shape (h f (by simp))]
      exact ih (fun x hx => h x (by simp [hx])) a

theorem filter_insF_const {fs : List SENode} {k : Int} (h : ∀ f ∈ fs, ShapeF f) :
    (insF (.constant k) fs).filter (fun c => !isConstNode c) = fs := by
  induction fs with
  | nil => rfl
  | cons f rest ih =>
    have hkeep : isConstNode f = false := isConstNode_shape (h f (by simp))
    simp only [insF]
    by_cases hle : enc (.constant k) ≤ enc f
    · rw [if_pos hle]
      rw [show List.filter (fun c => !isConstNode c) (SENode.constant k :: f :: rest)
          = f :: List.filter (fun c => !isConstNode c) rest from by
        simp [List.filter_cons, show isConstNode (SENode.constant k) = true from rfl, hkeep]]
      rw [filter_noconst (fun x hx => h x (by simp [hx]))]
    · rw [if_neg hle]
      rw [show List.filter (fun c => !isConstNode c) (f :: insF (SENode.constant k) rest)
          = f :: List.filter (fun c => !isConstNode c) (insF (SENode.constant k) rest) from by
        simp [List.filter_cons, hkeep]]
      rw [ih (fun x hx => h x (by simp [hx]))]

theorem factorize_insF_const {fs : List SENode} {k : Int} (h : ∀ f ∈ fs, ShapeF f)
    (hk : norm32 k = k) :
    factorize (.multiply (insF (.constant k) fs)) = (k, fs) := by
  simp only [factorize]
  rw [Prod.mk.injEq]
  refine ⟨?_, filter_insF_const h⟩
  rw [foldProd_insF_const h 1, Int.one_mul, hk]

theorem factorOK_vu (i : Nat) : FactorOK (.valueUnknown i) :=
  ⟨trivial, ⟨0, [(.valueUnknown i, 1)], []⟩, rfl, rfl, rfl⟩

theorem atom_factors_shape {fs : List SENode}
    (h : ∀ f ∈ fs, FactorOK f) : ∀ f ∈ fs, ShapeF f :=
  fun f hf => (h f hf).1

theorem atom_factors_nonempty {fs : List SENode} (hA : AtomOK (.multiply fs)) :
    fs ≠ [] := by
  intro hcon
  subst hcon
  have := hA.1
  simp at this

theorem factor_facts {q : Poly} (hq : WP q) (hnc : q.isConst = false) :
    (∀ f ∈ (factorize (reify q)).2, FactorOK f) ∧ FSorted (factorize (reify q)).2 ∧
      (factorize (reify q)).2 ≠ [] := by
  have hself : ShapeF (reify q) → (∀ f ∈ (factorize (reify q)).2, FactorOK f) ∧
      FSorted (factorize (reify q)).2 ∧ (factorize (reify q)).2 ≠ [] := by
    intro hs
    rw [factorize_shape hs]
    refine ⟨?_, by simp [FSorted], by simp⟩
    intro f hf
    rw [List.mem_singleton] at hf
    subst hf
    exact ⟨hs, q, reify_norm hq, rfl, hnc⟩
  obtain ⟨c, ts, ls⟩ := q
  cases ls with
  | cons e rest =>
    obtain ⟨L, cl⟩ := e
    rcases hv : ts.filter (fun t => containsLoop L t.1) with _ | ⟨v, vrest⟩
    · apply hself
      rw [show reify ⟨c, ts, (L, cl) :: rest⟩ = reifyGo c ts ((L, cl) :: rest) from rfl,
        reifyGo_rec_case hv]
      trivial
    · apply hself
      rw [show reify ⟨c, ts, (L, cl) :: rest⟩ = reifyGo c ts ((L, cl) :: rest) from rfl,
        reifyGo_var_case hv]
      trivial
  | nil =>
    match ts, hnc with
    | [], hnc => simp [Poly.isConst] at hnc
    | [(A, k)], _ =>
      have hw : WTerm (A, k) := hq.2.1.1 (A, k) (by simp)
      by_cases hc : c = 0
      · subst hc
        have hre : reify ⟨0, [(A, k)], []⟩ = termNode (A, k) := by
          rw [show reify ⟨0, [(A, k)], []⟩ = reifyLin 0 [(A, k)] from rfl]
          simp [reifyLin]
        rw [hre]
        by_cases h1 : k = 1
        · subst h1
          rw [show termNode (A, 1) = A from rfl]
          match A, hw.2.2 with
          | .valueUnknown i, _ =>
            have hs : ShapeF (SENode.valueUnknown i) := trivial
            rw [factorize_shape hs]
            exact ⟨fun f hf => by
              rw [List.mem_singleton] at hf
              subst hf
              exact factorOK_vu i, by simp [FSorted], by simp⟩
          | .multiply fs, hA =>
            rw [factorize_mul_noconst (atom_factors_shape hA.2.2)]
            exact ⟨hA.2.2, hA.2.1, atom_factors_nonempty hA⟩
        · by_cases h2 : k = -1
          · subst h2
            rw [show termNode (A, -1) = .negative A from by simp [termNode]]
            match A, hw.2.2 with
            | .valueUnknown i, _ =>
              have hfe : factorize (.negative (.valueUnknown i)) = (-1, [.valueUnknown i]) := by
                rw [show factorize (.negative (.valueUnknown i)) =
                  (norm32 (-(factorize (.valueUnknown i)).1), (factorize (.valueUnknown i)).2)
                  from rfl]
                rw [factorize_shape (by trivial : ShapeF (.valueUnknown i))]
                rfl
              rw [hfe]
              exact ⟨fun f hf => by
                rw [List.mem_singleton] at hf
                subst hf
                exact factorOK_vu i, by simp [FSorted], by simp⟩
            | .multiply fs, hA =>
              have hfe : factorize (.negative (.multiply fs)) = (-1, fs) := by
                rw [show factorize (.negative (.multiply fs)) =
                  (norm32 (-(factorize (.multiply fs)).1), (factorize (.multiply fs)).2)
                  from rfl]
                rw [factorize_mul_noconst (atom_factors_shape hA.2.2)]
                rfl
              rw [hfe]
              exact ⟨hA.2.2, hA.2.1, atom_factors_nonempty hA⟩
          · rw [show termNode (A, k) = .multiply (insF (.constant k) (factorsOfAtom A)) from
              by simp [termNode, h1, h2]]
            match A, hw.2.2 with
            | .valueUnknown i, _ =>
              have hfe : factorize (.multiply (insF (.constant k) [.valueUnknown i])) =
                  (k, [.valueUnknown i]) :=
                factorize_insF_const
                  (fun f hf => by
                    rw [List.mem_singleton] at hf
                    subst hf
                    trivial) hw.1
              rw [show factorsOfAtom (.valueUnknown i) = [.valueUnknown i] from rfl, hfe]
              exact ⟨fun f hf => by
                rw [List.mem_singleton] at hf
                subst hf
                exact factorOK_vu i, by simp [FSorted], by simp⟩
            | .multiply fs, hA =>
              have hfe : factorize (.multiply (insF (.constant k) fs)) = (k, fs) :=
                factorize_insF_const (atom_factors_shape hA.2.2) hw.1
              rw [show factorsOfAtom (.multiply fs) = fs from rfl, hfe]
              exact ⟨hA.2.2, hA.2.1, atom_factors_nonempty hA⟩
      · apply hself
        rw [show reify ⟨c, [(A, k)], []⟩ = reifyLin c [(A, k)] from rfl]
        simp only [reifyLin, if_neg hc]
        trivial
    | t1 :: t2 :: rest, _ =>
      apply hself
      rw [show reify ⟨c, t1 :: t2 :: rest, []⟩ = reifyLin c (t1 :: t2 :: rest) from rfl]
      simp only [reifyLin]
      trivial

end SEModel

namespace SEModel

theorem insF_length {f : SENode} {l : List SENode} :
    (insF f l).length = l.length + 1 := by
  induction l with
  | nil => rfl
  | cons g rest ih =>
    simp only [insF]
    by_cases hle : enc f ≤ enc g
    · rw [if_pos hle]; simp
    · rw [if_neg hle]; simp [ih]

theorem addFs_mem {l2 : List SENode} :
    ∀ l1, ∀ x ∈ addFs l1 l2, x ∈ l1 ∨ x ∈ l2 := by
  induction l2 with
  | nil => intro l1 x hx; exact Or.inl hx
  | cons f rest ih =>
    intro l1 x hx
    rcases ih (insF f l1) x hx with h1 | h1
    · rcases insF_mem x h1 with h2 | h2
      · right; simp [h2]
      · left; exact h2
    · right; simp [h1]

theorem addFs_sorted {l2 : List SENode} :
    ∀ {l1}, FSorted l1 → FSorted (addFs l1 l2) := by
  induction l2 with
  | nil => intro l1 h; exact h
  | cons f rest ih => intro l1 h; exact ih (insF_sorted h)

theorem addFs_length {l2 : List SENode} :
    ∀ l1 : List SENode, (addFs l1 l2).length = l1.length + l2.length := by
  induction l2 with
  | nil => intro l1; simp [addFs]
  | cons f rest ih =>
    intro l1
    have : addFs l1 (f :: rest) = addFs (insF f l1) rest := rfl
    rw [this, ih, insF_length]
    simp
    omega

theorem foldl_norm32_fix_c (l : List Poly) :
    ∀ a : Int, norm32 a = a →
      norm32 (l.foldl (fun a p => norm32 (a * p.c)) a) =
        l.foldl (fun a p => norm32 (a * p.c)) a := by
  induction l with
  | nil => intro a ha; exact ha
  | cons x rest ih =>
    intro a _
    simp only [List.foldl_cons]
    exact ih _ (norm32_idem _)

theorem foldl_norm32_fix_fst (l : List (Int × List SENode)) :
    ∀ a : Int, norm32 a = a →
      norm32 (l.foldl (fun a fp => norm32 (a * fp.1)) a) =
        l.foldl (fun a fp => norm32 (a * fp.1)) a := by
  induction l with
  | nil => intro a ha; exact ha
  | cons x rest ih =>
    intro a _
    simp only [List.foldl_cons]
    exact ih _ (norm32_idem _)

theorem foldl_addFs_ok {fps : List (Int × List SENode)}
    (h : ∀ fp ∈ fps, ∀ f ∈ fp.2, FactorOK f) :
    ∀ acc, (∀ f ∈ acc, FactorOK f) →
      ∀ f ∈ fps.foldl (fun a fp => addFs a fp.2) acc, FactorOK f := by
  induction fps with
  | nil => intro acc hacc; exact hacc
  | cons fp rest ih =>
    intro acc hacc
    simp only [List.foldl_cons]
    apply ih (fun x hx => h x (by simp [hx]))
    intro f hf
    rcases addFs_mem acc f hf with h1 | h1
    · exact hacc f h1
    · exact h fp (by simp) f h1

theorem foldl_addFs_sorted {fps : List (Int × List SENode)} :
    ∀ {acc}, FSorted acc → FSorted (fps.foldl (fun a fp => addFs a fp.2) acc) := by
  induction fps with
  | nil => intro acc hacc; exact hacc
  | cons fp rest ih => intro acc hacc; exact ih (addFs_sorted hacc)

theorem foldl_addFs_le {fps : List (Int × List SENode)}
    (h : ∀ fp ∈ fps, fp.2 ≠ []) :
    ∀ acc : List SENode,
      acc.length + fps.length ≤ (fps.foldl (fun a fp => addFs a fp.2) acc).length := by
  induction fps with
  | nil => intro acc; simp
  | cons fp rest ih =>
    intro acc
    simp only [List.foldl_cons, List.length_cons]
    have h1 : 1 ≤ fp.2.length := by
      have hne := h fp (by simp)
      cases hfp : fp.2 with
      | nil => exact absurd hfp hne
      | cons a l => simp [hfp]
    have h2 := ih (fun x hx => h x (by simp [hx])) (addFs acc fp.2)
    rw [addFs_length] at h2
    omega

theorem wterms_nil : WTerms [] :=
  ⟨fun t ht => by simp at ht, List.Pairwise.nil⟩

theorem wloops_nil : WLoops [] :=
  ⟨fun e he => by simp at he, List.Pairwise.nil⟩

/-- The combined normal form of a Multiply's children is well-formed. -/
theorem mulAll_wf {ps : List Poly} (h : ∀ p ∈ ps, WP p) : WP (mulAll ps) := by
  have hos : ∀ p ∈ ps.filter (fun p => !p.isConst), WP p ∧ p.isConst = false := by
    intro p hp
    have hm := List.mem_filter.mp hp
    exact ⟨h p hm.1, by simpa using hm.2⟩
  have hk : norm32 ((ps.filter (fun p => p.isConst)).foldl
      (fun a p => norm32 (a * p.c)) 1) = (ps.filter (fun p => p.isConst)).foldl
      (fun a p => norm32 (a * p.c)) 1 :=
    foldl_norm32_fix_c _ 1 norm32_one
  rcases hosv : ps.filter (fun p => !p.isConst) with _ | ⟨q1, os1⟩
  · simp only [mulAll, hosv]
    exact ⟨hk, wterms_nil, wloops_nil⟩
  · rcases os1 with _ | ⟨q2, os2⟩
    · simp only [mulAll, hosv]
      have hq1 : WP q1 := (hos q1 (by rw [hosv]; simp)).1
      exact scalePoly_wf hq1 _
    · have hq : ∀ p ∈ q1 :: q2 :: os2, WP p ∧ p.isConst = false := by
        intro p hp
        exact hos p (by rw [hosv]; exact hp)
      have hfp : ∀ fp ∈ (q1 :: q2 :: os2).map (fun p => factorize (reify p)),
          (∀ f ∈ fp.2, FactorOK f) ∧ FSorted fp.2 ∧ fp.2 ≠ [] := by
        intro fp hfp
        obtain ⟨p, hp, rfl⟩ := List.mem_map.mp hfp
        obtain ⟨hwp, hnc⟩ := hq p hp
        exact factor_facts hwp hnc
      simp only [mulAll, hosv]
      split
      · exact zeroP_wf
      next hk2 =>
        refine ⟨norm32_zero, ⟨?_, List.pairwise_singleton _ _⟩, wloops_nil⟩
        intro t ht
        rw [List.mem_singleton] at ht
        subst ht
        refine ⟨?_, hk2, ?_, ?_, ?_⟩
        · exact foldl_norm32_fix_fst _ _ hk
        · have hle := foldl_addFs_le (fun fp hfp2 => (hfp fp hfp2).2.2) []
          simp only [List.length_map, List.length_cons, List.length_nil] at hle
          omega
        · exact foldl_addFs_sorted List.Pairwise.nil
        · exact foldl_addFs_ok (fun fp hfp2 => (hfp fp hfp2).1) [] (fun f hf => by simp at hf)

end SEModel

namespace SEModel

mutual
/-- Every normal form produced by norm is well-formed. -/
theorem norm_wf : ∀ (n : SENode) (p : Poly), norm n = some p → WP p
  | .constant v, p, h => by
      simp only [norm] at h
      obtain rfl := Option.some.inj h
      exact ⟨norm32_idem v, wterms_nil, wloops_nil⟩
  | .valueUnknown i, p, h => by
      simp only [norm] at h
      obtain rfl := Option.some.inj h
      refine ⟨norm32_zero, ⟨?_, List.pairwise_singleton _ _⟩, wloops_nil⟩
      intro t ht
      rw [List.mem_singleton] at ht
      subst ht
      exact ⟨norm32_one, one_ne_zero, trivial⟩
  | .add cs, p, h => by
      simp only [norm] at h
      rcases hn : normList cs with _ | ps
      · rw [hn] at h; exact absurd h (by simp)
      · rw [hn] at h
        simp only [Option.map_some'] at h
        obtain rfl := Option.some.inj h
        exact addAll_wf (normList_wf cs ps hn)
  | .multiply cs, p, h => by
      simp only [norm] at h
      rcases hn : normList cs with _ | ps
      · rw [hn] at h; exact absurd h (by simp)
      · rw [hn] at h
        simp only [Option.map_some'] at h
        obtain rfl := Option.some.inj h
        exact mulAll_wf (normList_wf cs ps hn)
  | .negative c, p, h => by
      simp only [norm] at h
      rcases hn : norm c with _ | q
      · rw [hn] at h; exact absurd h (by simp)
      · rw [hn] at h
        simp only [Option.map_some'] at h
        obtain rfl := Option.some.inj h
        exact scalePoly_wf (norm_wf c q hn) (-1)
  | .recurrent L a b, p, h => by
      simp only [norm] at h
      split at h
      next pa pb hna hnb =>
        have hpa := norm_wf a pa hna
        have hpb := norm_wf b pb hnb
        split at h
        next hle =>
          split at h
          next hz =>
            obtain rfl := Option.some.inj h
            exact hpb
          next hz =>
            obtain rfl := Option.some.inj h
            refine addPoly_wf hpb ⟨norm32_zero, wterms_nil, ?_, List.pairwise_singleton _ _⟩
            intro e he
            rw [List.mem_singleton] at he
            subst he
            refine ⟨⟨hpa.1, hpa.2.1⟩, ?_⟩
            show (pa.c == 0 && pa.ts.isEmpty) = false
            by_cases hc0 : pa.c = 0
            · have hts : pa.ts.isEmpty = false := by
                cases hts : pa.ts.isEmpty
                · rfl
                · exact absurd ⟨hc0, hts⟩ hz
              simp [hts]
            · simp [hc0]
        next hle => exact absurd h (by simp)
      next => exact absurd h (by simp)
  | .canNotCompute, p, h => by
      simp only [norm] at h
      exact absurd h (by simp)
theorem normList_wf : ∀ (cs : List SENode) (ps : List Poly),
    normList cs = some ps → ∀ p ∈ ps, WP p
  | [], ps, h => by
      simp only [normList] at h
      obtain rfl := Option.some.inj h
      intro p hp
      simp at hp
  | c :: cs, ps, h => by
      simp only [normList] at h
      rcases hc : norm c with _ | q
      · rw [hc] at h; exact absurd h (by simp)
      rcases hcs : normList cs with _ | qs
      · rw [hc, hcs] at h; exact absurd h (by simp)
      rw [hc, hcs] at h
      obtain rfl := Option.some.inj h
      intro p hp
      rcases List.mem_cons.mp hp with h1 | h1
      · exact h1 ▸ norm_wf c q hc
      · exact normList_wf cs qs hcs p h1
end

end SEModel

namespace SEModel

/-- A linear form cancels against its own negation. -/
theorem addLin_self_neg {a : Lin} (ha : WLin a) : addLin a (scaleLin (-1) a) = zeroLin := by
  obtain ⟨c, ts⟩ := a
  have hts : WTerms ts := ha.2
  have hsts : WTerms (scaleTerms (-1) ts) := scaleTerms_wf hts (-1)
  rw [show addLin ⟨c, ts⟩ (scaleLin (-1) ⟨c, ts⟩) =
      ⟨norm32 (c + norm32 (-1 * c)), addTerms ts (scaleTerms (-1) ts)⟩ from rfl]
  rw [Lin.mk.injEq]
  constructor
  · rw [show (-1 : Int) * c = -c from by ring]
    exact norm32_self_neg c
  · apply tlook_ext (addTerms_wf hts hsts.1) wterms_nil
    intro e
    rw [tlook_addTerms hts hsts, tlook_scaleTerms hts (-1) e,
      show (-1 : Int) * tlook ts e = -(tlook ts e) from by ring, norm32_self_neg]
    rfl

/-- A normal form cancels against its own negation. -/
theorem addPoly_self_neg {p : Poly} (hp : WP p) : addPoly p (scalePoly (-1) p) = zeroP := by
  obtain ⟨c, ts, ls⟩ := p
  have hts : WTerms ts := hp.2.1
  have hls : WLoops ls := hp.2.2
  refine poly_ext (addPoly_wf hp (scalePoly_wf hp (-1))) zeroP_wf ?_ ?_ ?_
  · show norm32 (c + norm32 (-1 * c)) = 0
    rw [show (-1 : Int) * c = -c from by ring]
    exact norm32_self_neg c
  · intro e
    show tlook (addTerms ts (scaleTerms (-1) ts)) e = tlook [] e
    rw [tlook_addTerms hts (scaleTerms_wf hts (-1)), tlook_scaleTerms hts (-1) e,
      show (-1 : Int) * tlook ts e = -(tlook ts e) from by ring, norm32_self_neg]
    rfl
  · intro M
    show llook (addLoops ls (scaleLoops (-1) ls)) M = llook [] M
    rw [llook_addLoops hls (scaleLoops_wf hls (-1)), llook_scaleLoops hls (-1) M,
      addLin_self_neg (llook_wf (fun e he => (hls.1 e he).1) M)]
    rfl

theorem norm_negative {x : SENode} {p : Poly} (h : norm x = some p) :
    norm (.negative x) = some (scalePoly (-1) p) := by
  simp [norm, h]

theorem norm_add_pair {x y : SENode} {p q : Poly} (hx : norm x = some p)
    (hy : norm y = some q) : norm (.add [x, y]) = some (addPoly p q) := by
  have h2 : normList [x, y] = some [p, q] :=
    normList_cons_eq hx (normList_cons_eq hy rfl)
  simp [norm, h2, addAll]

theorem norm_subtraction_self {x : SENode} {p : Poly} (hx : norm x = some p) :
    norm (CreateSubtraction x x) = some zeroP := by
  rw [show CreateSubtraction x x = .add [x, .negative x] from rfl,
    norm_add_pair hx (norm_negative hx), addPoly_self_neg (norm_wf x p hx)]

end SEModel

namespace SEModel

theorem norm_add_none_left {x y : SENode} (hx : norm x = none) :
    norm (.add [x, y]) = none := by
  simp [norm, normList, hx]

theorem norm_add_none_right {x y : SENode} (hy : norm y = none) :
    norm (.add [x, y]) = none := by
  rcases hx : norm x with _ | p <;> simp [norm, normList, hx, hy]

theorem norm32_subswap (x y : Int) :
    norm32 (y + norm32 (-1 * x)) = norm32 (-1 * norm32 (x + norm32 (-1 * y))) := by
  unfold norm32
  omega

/-- Swapping the operands of a subtraction negates the linear form. -/
theorem subswapLin {x y : Lin} (hx : WLin x) (hy : WLin y) :
    addLin y (scaleLin (-1) x) = scaleLin (-1) (addLin x (scaleLin (-1) y)) := by
  obtain ⟨cx, tx⟩ := x
  obtain ⟨cy, ty⟩ := y
  have htx : WTerms tx := hx.2
  have hty : WTerms ty := hy.2
  rw [show addLin ⟨cy, ty⟩ (scaleLin (-1) ⟨cx, tx⟩) =
      ⟨norm32 (cy + norm32 (-1 * cx)), addTerms ty (scaleTerms (-1) tx)⟩ from rfl,
    show scaleLin (-1) (addLin ⟨cx, tx⟩ (scaleLin (-1) ⟨cy, ty⟩)) =
      ⟨norm32 (-1 * norm32 (cx + norm32 (-1 * cy))),
        scaleTerms (-1) (addTerms tx (scaleTerms (-1) ty))⟩ from rfl,
    Lin.mk.injEq]
  refine ⟨norm32_subswap cx cy, ?_⟩
  apply tlook_ext (addTerms_wf hty (scaleTerms_wf htx (-1)).1)
    (scaleTerms_wf (addTerms_wf htx (scaleTerms_wf hty (-1)).1) (-1))
  intro e
  rw [tlook_addTerms hty (scaleTerms_wf htx (-1)), tlook_scaleTerms htx (-1) e,
    tlook_scaleTerms (addTerms_wf htx (scaleTerms_wf hty (-1)).1) (-1) e,
    tlook_addTerms htx (scaleTerms_wf hty (-1)), tlook_scaleTerms hty (-1) e]
  exact norm32_subswap (tlook tx e) (tlook ty e)

/-- Swapping the operands of a subtraction negates the normal form. -/
theorem subswapPoly {x y : Poly} (hx : WP x) (hy : WP y) :
    addPoly y (scalePoly (-1) x) = scalePoly (-1) (addPoly x (scalePoly (-1) y)) := by
  refine poly_ext (addPoly_wf hy (scalePoly_wf hx (-1)))
    (scalePoly_wf (addPoly_wf hx (scalePoly_wf hy (-1))) (-1)) ?_ ?_ ?_
  · exact norm32_subswap x.c y.c
  · intro e
    show tlook (addTerms y.ts (scaleTerms (-1) x.ts)) e =
      tlook (scaleTerms (-1) (addTerms x.ts (scaleTerms (-1) y.ts))) e
    rw [tlook_addTerms hy.2.1 (scaleTerms_wf hx.2.1 (-1)), tlook_scaleTerms hx.2.1 (-1) e,
      tlook_scaleTerms (addTerms_wf hx.2.1 (scaleTerms_wf hy.2.1 (-1)).1) (-1) e,
      tlook_addTerms hx.2.1 (scaleTerms_wf hy.2.1 (-1)), tlook_scaleTerms hy.2.1 (-1) e]
    exact norm32_subswap (tlook x.ts e) (tlook y.ts e)
  · intro M
    show llook (addLoops y.ls (scaleLoops (-1) x.ls)) M =
      llook (scaleLoops (-1) (addLoops x.ls (scaleLoops (-1) y.ls))) M
    rw [llook_addLoops hy.2.2 (scaleLoops_wf hx.2.2 (-1)), llook_scaleLoops hx.2.2 (-1) M,
      llook_scaleLoops (addLoops_wf hx.2.2 (scaleLoops_wf hy.2.2 (-1)).1) (-1) M,
      llook_addLoops hx.2.2 (scaleLoops_wf hy.2.2 (-1)), llook_scaleLoops hy.2.2 (-1) M]
    exact subswapLin (llook_wf (fun e he => (hx.2.2.1 e he).1) M)
      (llook_wf (fun e he => (hy.2.2.1 e he).1) M)

/-- Subtracting two recurrences of the same loop with the identical
coefficient cancels that loop's recurrence entirely. -/
theorem addLoops_cancel_head {L : Nat} {cl : Lin} {r1 r2 : List (Nat × Lin)}
    (h1 : WLoops ((L, cl) :: r1)) (h2 : WLoops ((L, cl) :: r2)) :
    addLoops ((L, cl) :: r1) (scaleLoops (-1) ((L, cl) :: r2)) =
      addLoops r1 (scaleLoops (-1) r2) := by
  have hr1 : WLoops r1 := ⟨fun x hx => h1.1 x (by simp [hx]), (List.pairwise_cons.mp h1.2).2⟩
  have hr2 : WLoops r2 := ⟨fun x hx => h2.1 x (by simp [hx]), (List.pairwise_cons.mp h2.2).2⟩
  have hb1 : ∀ x ∈ r1, L < x.1 := (List.pairwise_cons.mp h1.2).1
  have hb2 : ∀ x ∈ r2, L < x.1 := (List.pairwise_cons.mp h2.2).1
  have hcl : WLin cl := (h1.1 (L, cl) (by simp)).1
  apply llook_ext (addLoops_wf h1 (scaleLoops_wf h2 (-1)).1)
    (addLoops_wf hr1 (scaleLoops_wf hr2 (-1)).1)
  intro M
  rw [llook_addLoops h1 (scaleLoops_wf h2 (-1)), llook_scaleLoops h2 (-1) M,
    llook_addLoops hr1 (scaleLoops_wf hr2 (-1)), llook_scaleLoops hr2 (-1) M]
  by_cases hM : L = M
  · subst hM
    rw [llook_cons_self, llook_cons_self, addLin_self_neg hcl,
      llook_zero_of_lt hb1, llook_zero_of_lt hb2, scaleLin_zero,
      addLin_zero_right zeroLin_wf]
  · rw [llook_cons_ne hM, llook_cons_ne hM]

theorem WP_drop_loop {c : Int} {ts : List (SENode × Int)} {e : Nat × Lin}
    {rest : List (Nat × Lin)} (hp : WP ⟨c, ts, e :: rest⟩) : WP ⟨c, ts, rest⟩ :=
  ⟨hp.1, hp.2.1, ⟨fun x hx => hp.2.2.1 x (by simp [hx]), (List.pairwise_cons.mp hp.2.2.2).2⟩⟩

theorem subPoly_drop_rec {c1 c2 : Int} {t1 t2 : List (SENode × Int)} {L : Nat}
    {cl : Lin} {r1 r2 : List (Nat × Lin)}
    (hp1 : WP ⟨c1, t1, (L, cl) :: r1⟩) (hp2 : WP ⟨c2, t2, (L, cl) :: r2⟩) :
    addPoly ⟨c1, t1, (L, cl) :: r1⟩ (scalePoly (-1) ⟨c2, t2, (L, cl) :: r2⟩) =
      addPoly ⟨c1, t1, r1⟩ (scalePoly (-1) ⟨c2, t2, r2⟩) := by
  simp only [addPoly, scalePoly]
  rw [Poly.mk.injEq]
  exact ⟨rfl, rfl, addLoops_cancel_head hp1.2.2 hp2.2.2⟩

theorem filter_not_of_filter_nil {ts : List (SENode × Int)} {L : Nat}
    (h : ts.filter (fun t => containsLoop L t.1) = []) :
    ts.filter (fun t => !containsLoop L t.1) = ts := by
  apply List.filter_eq_self.mpr
  intro t ht
  have h2 := List.filter_eq_nil_iff.mp h t ht
  simp at h2 ⊢
  exact h2

/-- The possible head shapes of a rendered loop-free linear form. -/
theorem reifyLin_cases {c : Int} {ts : List (SENode × Int)} (h : WLin ⟨c, ts⟩) :
    (∃ v, reifyLin c ts = .constant v) ∨
    (∃ m, reifyLin c ts = .valueUnknown m ∧ c = 0 ∧ ts = [(.valueUnknown m, 1)]) ∨
    (∃ x, reifyLin c ts = .negative x) ∨
    (∃ l, reifyLin c ts = .multiply l) ∨
    (∃ l, reifyLin c ts = .add l) := by
  match ts, h with
  | [], _ => exact Or.inl ⟨c, rfl⟩
  | [(A, k)], h =>
    by_cases hc : c = 0
    · subst hc
      have hw : WTerm (A, k) := h.2.1 (A, k) (by simp)
      have hre : reifyLin 0 [(A, k)] = termNode (A, k) := by simp [reifyLin]
      by_cases hk1 : k = 1
      · subst hk1
        rw [show termNode (A, 1) = A from rfl] at hre
        match A, hw.2.2 with
        | .valueUnknown i, _ => exact Or.inr (Or.inl ⟨i, hre, rfl, rfl⟩)
        | .multiply fs, _ => exact Or.inr (Or.inr (Or.inr (Or.inl ⟨fs, hre⟩)))
      · by_cases hk2 : k = -1
        · subst hk2
          rw [show termNode (A, -1) = .negative A from by simp [termNode]] at hre
          exact Or.inr (Or.inr (Or.inl ⟨A, hre⟩))
        · rw [show termNode (A, k) = .multiply (insF (.constant k) (factorsOfAtom A)) from
            by simp [termNode, hk1, hk2]] at hre
          exact Or.inr (Or.inr (Or.inr (Or.inl ⟨_, hre⟩)))
    · refine Or.inr (Or.inr (Or.inr (Or.inr ⟨[.constant c, termNode (A, k)], ?_⟩)))
      simp [reifyLin, hc]
  | t1 :: t2 :: rest, _ =>
    exact Or.inr (Or.inr (Or.inr (Or.inr ⟨linChildren c (t1 :: t2 :: rest), rfl⟩)))

/-- Inversion: a canonical node that is a recurrence comes from a normal
form headed by that loop, with no loop-variant stray terms. -/
theorem reify_rec_inv {p : Poly} (hp : WP p) {L : Nat} {cN oN : SENode}
    (h : reify p = .recurrent L cN oN) :
    ∃ cl rest, p.ls = (L, cl) :: rest ∧ cN = reifyLin cl.c cl.ts ∧
      oN = reify ⟨p.c, p.ts, rest⟩ := by
  obtain ⟨c, ts, ls⟩ := p
  cases ls with
  | nil =>
    exfalso
    rw [show reify ⟨c, ts, []⟩ = reifyLin c ts from rfl] at h
    rcases reifyLin_cases ⟨hp.1, hp.2.1⟩ with ⟨v, he⟩ | ⟨m, he, _, _⟩ | ⟨x, he⟩ |
      ⟨l, he⟩ | ⟨l, he⟩ <;> rw [he] at h <;> exact SENode.noConfusion h
  | cons e rest =>
    obtain ⟨M, cl⟩ := e
    rcases hv : ts.filter (fun t => containsLoop M t.1) with _ | ⟨v, vrest⟩
    · rw [show reify ⟨c, ts, (M, cl) :: rest⟩ = reifyGo c ts ((M, cl) :: rest) from rfl,
        reifyGo_rec_case hv] at h
      injection h with hM hcc ho
      subst hM
      refine ⟨cl, rest, rfl, hcc.symm, ?_⟩
      rw [← ho, filter_not_of_filter_nil hv]
      rfl
    · rw [show reify ⟨c, ts, (M, cl) :: rest⟩ = reifyGo c ts ((M, cl) :: rest) from rfl,
        reifyGo_var_case hv] at h
      exact SENode.noConfusion h

/-- Inversion: a canonical node that is a bare ValueUnknown comes from the
singleton normal form with unit coefficient. -/
theorem reify_vu_inv {p : Poly} (hp : WP p) {m : Nat}
    (h : reify p = .valueUnknown m) : p = ⟨0, [(.valueUnknown m, 1)], []⟩ := by
  obtain ⟨c, ts, ls⟩ := p
  cases ls with
  | cons e rest =>
    exfalso
    obtain ⟨M, cl⟩ := e
    rcases hv : ts.filter (fun t => containsLoop M t.1) with _ | ⟨v, vrest⟩
    · rw [show reify ⟨c, ts, (M, cl) :: rest⟩ = reifyGo c ts ((M, cl) :: rest) from rfl,
        reifyGo_rec_case hv] at h
      exact SENode.noConfusion h
    · rw [show reify ⟨c, ts, (M, cl) :: rest⟩ = reifyGo c ts ((M, cl) :: rest) from rfl,
        reifyGo_var_case hv] at h
      exact SENode.noConfusion h
  | nil =>
    rw [show reify ⟨c, ts, []⟩ = reifyLin c ts from rfl] at h
    rcases reifyLin_cases ⟨hp.1, hp.2.1⟩ with ⟨v, he⟩ | ⟨m2, he, hc0, hts⟩ | ⟨x, he⟩ |
      ⟨l, he⟩ | ⟨l, he⟩
    · rw [he] at h; exact SENode.noConfusion h
    · rw [he] at h
      injection h with hm
      subst hm
      rw [Poly.mk.injEq]
      exact ⟨hc0, hts, rfl⟩
    · rw [he] at h; exact SENode.noConfusion h
    · rw [he] at h; exact SENode.noConfusion h
    · rw [he] at h; exact SENode.noConfusion h

end SEModel

namespace SEModel

/-- The store entry at the index intern returns is the interned node. -/
theorem intern_lookup (s : List SENode) (a : SENode) :
    (intern s a).1[(intern s a).2]? = some a := by
  by_cases ha : a ∈ s
  · have h1 : intern s a = (s, s.indexOf a) := by simp [intern, ha]
    rw [h1]
    show s[s.indexOf a]? = some a
    rw [List.getElem?_eq_getElem (List.indexOf_lt_length.mpr ha), List.getElem_indexOf]
  · have h1 : intern s a = (s ++ [a], s.length) := by simp [intern, ha]
    rw [h1]
    show (s ++ [a])[s.length]? = some a
    simp

/-- Index identity out of the store is structural equality of the nodes. -/
theorem intern_index_iff (s : List SENode) (a b : SENode) :
    (intern (intern s a).1 b).2 = (intern s a).2 ↔ b = a := by
  by_cases ha : a ∈ s
  · have h1 : intern s a = (s, s.indexOf a) := by simp [intern, ha]
    rw [h1]
    by_cases hb : b ∈ s
    · have h2 : intern s b = (s, s.indexOf b) := by simp [intern, hb]
      show (intern s b).2 = s.indexOf a ↔ b = a
      rw [h2]
      exact List.indexOf_inj hb ha
    · have h2 : intern s b = (s ++ [b], s.length) := by simp [intern, hb]
      show (intern s b).2 = s.indexOf a ↔ b = a
      rw [h2]
      constructor
      · intro h
        have h3 := List.indexOf_lt_length.mpr ha
        show b = a
        omega
      · intro h
        exact absurd (h ▸ ha) hb
  · have h1 : intern s a = (s ++ [a], s.length) := by simp [intern, ha]
    rw [h1]
    by_cases hb : b ∈ s ++ [a]
    · have h2 : intern (s ++ [a]) b = (s ++ [a], (s ++ [a]).indexOf b) := by
        simp [intern, hb]
      show (intern (s ++ [a]) b).2 = s.length ↔ b = a
      rw [h2]
      constructor
      · intro h
        rcases List.mem_append.mp hb with h3 | h3
        · exfalso
          rw [List.indexOf_append_of_mem h3] at h
          have h4 := List.indexOf_lt_length.mpr h3
          omega
        · simpa using h3
      · intro h
        subst h
        rw [List.indexOf_append_of_not_mem ha]
        simp
    · have h2 : intern (s ++ [a]) b = ((s ++ [a]) ++ [b], (s ++ [a]).length) := by
        simp [intern, hb]
      show (intern (s ++ [a]) b).2 = s.length ↔ b = a
      rw [h2]
      constructor
      · intro h
        exfalso
        simp at h
      · intro h
        exact absurd (h ▸ (by simp : a ∈ s ++ [a])) hb

end SEModel

namespace SEModel

theorem SimplifyExpression_eq_of_norm {n : SENode} {p : Poly} (h : norm n = some p) :
    SimplifyExpression n = reify p := by
  simp [SimplifyExpression, h]

theorem SimplifyExpression_cnc_of_none {n : SENode} (h : norm n = none) :
    SimplifyExpression n = .canNotCompute := by
  simp [SimplifyExpression, h]

/-- The SSA program of the `SimplifySimple` test function: `%22` loads N and
`%31` computes `N*2 + 4 + 5 - 24 - N - N + 48`. -/
def progSimplifySimple : Nat → Option Inst
  | 15 => some (.icst 2)
  | 16 => some (.icst 4)
  | 17 => some (.icst 5)
  | 18 => some (.icst 24)
  | 19 => some (.icst 48)
  | 22 => some .iload
  | 23 => some (.imul 22 15)
  | 24 => some (.iadd 23 16)
  | 25 => some (.iadd 24 17)
  | 26 => some (.isub 25 18)
  | 28 => some (.isub 26 22)
  | 30 => some (.isub 28 22)
  | 31 => some (.iadd 30 19)
  | _ => none

/-- The SSA program of the `Simplify` test function: loop header `%21` with
induction phi `%78` (init 0, step +1), an opaque loop-invariant value `%18`
(N), and the array index expressions `i-1` (`%43`), `i+1` (`%49`, `%54`,
`%56`) and `i+N` (`%62`, `%65`, `%72`). -/
def progSimplify : Nat → Option Inst
  | 20 => some (.icst 0)
  | 42 => some (.icst 1)
  | 78 => some (.iphi 21 20 77)
  | 77 => some (.iadd 78 42)
  | 18 => some .iother
  | 43 => some (.isub 78 42)
  | 49 => some (.iadd 78 42)
  | 54 => some (.iadd 78 42)
  | 56 => some (.iadd 78 42)
  | 62 => some (.iadd 78 18)
  | 65 => some (.iadd 78 18)
  | 72 => some (.iadd 78 18)
  | _ => none

/-- The SSA program of the `SimplifyNegativeSteps` test function: loop
header `%22` with induction phi `%23` starting at 0 and stepping by -1
(back-edge `%24 = %23 - 1`). -/
def progNegativeSteps : Nat → Option Inst
  | 10 => some (.icst 0)
  | 19 => some (.icst 1)
  | 23 => some (.iphi 22 10 24)
  | 24 => some (.isub 23 19)
  | _ => none

/-- The SSA program of the `SimplifyInductionsAndLoads` test function: loop
header `%23` with down-counting phi `%24`, a loaded value `%31` (N), and the
index expressions `i+2N` (`%33`), `i+N` (`%35`), `2i+2N+1` (`%43`, `%47`). -/
def progInductionsAndLoads : Nat → Option Inst
  | 10 => some (.icst 0)
  | 21 => some (.icst 1)
  | 18 => some (.icst 2)
  | 24 => some (.iphi 23 10 25)
  | 25 => some (.isub 24 21)
  | 31 => some .iload
  | 32 => some (.imul 18 31)
  | 33 => some (.iadd 24 32)
  | 35 => some (.iadd 24 31)
  | 39 => some (.imul 18 24)
  | 41 => some (.imul 18 31)
  | 42 => some (.iadd 39 41)
  | 43 => some (.iadd 42 21)
  | 44 => some (.imul 18 24)
  | 46 => some (.iadd 44 31)
  | 47 => some (.iadd 46 21)
  | _ => none

/-- The SSA program of the `InductionWithVariantStep` test function: loop
header `%21` with phi `%22` (init 0, step +1) and a second phi `%25` whose
back-edge step `%23` is the first phi's next value, hence loop-variant. -/
def progVariantStep : Nat → Option Inst
  | 11 => some (.icst 0)
  | 14 => some (.icst 1)
  | 22 => some (.iphi 21 11 23)
  | 23 => some (.iadd 22 14)
  | 25 => some (.iphi 21 11 26)
  | 26 => some (.iadd 25 23)
  | _ => none

end SEModel

namespace SEModel

/-- C1: SimplifyExpression is idempotent: for every SE node n, applying
SimplifyExpression to the result of SimplifyExpression n returns the
identical canonical node as SimplifyExpression n. -/
theorem C1_simplify_idempotent (n : SENode) :
    SimplifyExpression (SimplifyExpression n) = SimplifyExpression n := by
  rcases hn : norm n with _ | p
  · rw [SimplifyExpression_cnc_of_none hn,
      SimplifyExpression_cnc_of_none (show norm SENode.canNotCompute = none from rfl)]
  · rw [SimplifyExpression_eq_of_norm hn,
      SimplifyExpression_eq_of_norm (reify_norm (norm_wf n p hn))]

/-- C2: Interning invariant: the store entry at the index intern returns is
the interned node itself, and after interning a node, interning any second
node yields the same index exactly when the two nodes are structurally
equal — index (pointer) identity on interned nodes is equivalent to value
equality. -/
theorem C2_intern_invariant (s : List SENode) (a b : SENode) :
    (intern s a).1[(intern s a).2]? = some a ∧
      ((intern (intern s a).1 b).2 = (intern s a).2 ↔ b = a) :=
  ⟨intern_lookup s a, intern_index_iff s a b⟩

/-- C3: Self-cancellation: for any analyzable address expression X (one
whose simplification is not CanNotCompute), simplifying the
CreateSubtraction of X from itself yields Constant 0. -/
theorem C3_self_cancellation (X : SENode)
    (h : SimplifyExpression X ≠ .canNotCompute) :
    SimplifyExpression (CreateSubtraction X X) = .constant 0 := by
  rcases hn : norm X with _ | p
  · exact absurd (SimplifyExpression_cnc_of_none hn) h
  · rw [SimplifyExpression_eq_of_norm (norm_subtraction_self hn)]
    rfl

/-- C3 witness: the `[i+N]` store address of the Simplify test minus itself
simplifies to Constant 0. -/
theorem C3_self_cancellation_witness :
    SimplifyExpression (AnalyzeInstruction progSimplify 20 62) ≠ .canNotCompute ∧
      SimplifyExpression (CreateSubtraction (AnalyzeInstruction progSimplify 20 62)
        (AnalyzeInstruction progSimplify 20 62)) = .constant 0 :=
  ⟨by decide, C3_self_cancellation (AnalyzeInstruction progSimplify 20 62) (by decide)⟩

/-- C4: Simplification is compositional: simplifying the CreateAddNode of
two subtrees as one whole graph yields the identical canonical node as
simplifying the two subtrees independently and then combining them via
CreateAddNode followed by SimplifyExpression. -/
theorem C4_simplify_compositional (a b : SENode) :
    SimplifyExpression (CreateAddNode a b) =
      SimplifyExpression (CreateAddNode (SimplifyExpression a) (SimplifyExpression b)) := by
  rw [show CreateAddNode a b = .add [a, b] from rfl,
    show CreateAddNode (SimplifyExpression a) (SimplifyExpression b) =
      .add [SimplifyExpression a, SimplifyExpression b] from rfl]
  rcases ha : norm a with _ | pa
  · rw [SimplifyExpression_cnc_of_none ha,
      SimplifyExpression_cnc_of_none (norm_add_none_left ha),
      SimplifyExpression_cnc_of_none
        (norm_add_none_left (show norm SENode.canNotCompute = none from rfl))]
  · rw [SimplifyExpression_eq_of_norm ha]
    rcases hb : norm b with _ | pb
    · rw [SimplifyExpression_cnc_of_none hb,
        SimplifyExpression_cnc_of_none (norm_add_none_right hb),
        SimplifyExpression_cnc_of_none
          (norm_add_none_right (show norm SENode.canNotCompute = none from rfl))]
    · rw [SimplifyExpression_eq_of_norm hb,
        SimplifyExpression_eq_of_norm (norm_add_pair ha hb),
        SimplifyExpression_eq_of_norm
          (norm_add_pair (reify_norm (norm_wf a pa ha)) (reify_norm (norm_wf b pb hb)))]

/-- C5: Full constant folding with structural cancellation: analyzing the
index expression `N*2 + 4 + 5 - 24 - N - N + 48` of the SimplifySimple
test (the loads of N cancel structurally) and simplifying it yields
Constant 33. -/
theorem C5_constant_folding :
    SimplifyExpression (AnalyzeInstruction progSimplifySimple 20 31) = .constant 33 := by
  rfl

/-- C6: Mutually-dependent induction phis: the first header phi of the
InductionWithVariantStep test resolves to a RecurrentAddExpr, the second
phi (whose step is loop-variant) to CanNotCompute, and SimplifyExpression
applied to CanNotCompute returns CanNotCompute unchanged. -/
theorem C6_variant_step_cnc :
    AnalyzeInstruction progVariantStep 20 22 =
        .recurrent 21 (.constant 1) (.constant 0) ∧
      AnalyzeInstruction progVariantStep 20 25 = .canNotCompute ∧
      SimplifyExpression .canNotCompute = .canNotCompute :=
  ⟨rfl, rfl, rfl⟩

/-- C7: Constant-offset distances in the Simplify test: `[i] - [i-1]`
simplifies to Constant 1 and `[i] - [i+1]` to Constant (-1). -/
theorem C7_constant_offset_distances :
    SimplifyExpression (CreateSubtraction (AnalyzeInstruction progSimplify 20 78)
        (AnalyzeInstruction progSimplify 20 43)) = .constant 1 ∧
      SimplifyExpression (CreateSubtraction (AnalyzeInstruction progSimplify 20 78)
        (AnalyzeInstruction progSimplify 20 49)) = .constant (-1) :=
  ⟨rfl, rfl⟩

/-- C8: Symbolic-offset distance in the Simplify test: `[i] - [i+N]` with
loop-invariant opaque N simplifies to Negative (ValueUnknown N). -/
theorem C8_symbolic_offset_distance :
    SimplifyExpression (CreateSubtraction (AnalyzeInstruction progSimplify 20 78)
      (AnalyzeInstruction progSimplify 20 72)) = .negative (.valueUnknown 18) := by
  rfl

/-- C9: Negative-step recurrence recognition: the down-counting induction
phi of the SimplifyNegativeSteps test analyzes to a RecurrentAddExpr with
coefficient Constant (-1) and offset Constant 0. -/
theorem C9_negative_step_recurrence :
    AnalyzeInstruction progNegativeSteps 20 23 =
      .recurrent 22 (.constant (-1)) (.constant 0) := by
  rfl

/-- C10: When two simplified recurrences over the same loop have the
identical coefficient, simplifying the CreateSubtraction of one from the
other collapses the recurrence entirely: when the simplified difference of
their offsets is a bare ValueUnknown, the whole difference simplifies to
that same bare ValueUnknown (not wrapped in any recurrence), and the
inverse subtraction simplifies to Negative of that identical node. -/
theorem C10_recurrence_collapse {x1 x2 cN o1 o2 : SENode} {L m : Nat}
    (h1 : SimplifyExpression x1 = .recurrent L cN o1)
    (h2 : SimplifyExpression x2 = .recurrent L cN o2)
    (hd : SimplifyExpression (CreateSubtraction o1 o2) = .valueUnknown m) :
    SimplifyExpression (CreateSubtraction x1 x2) = .valueUnknown m ∧
      SimplifyExpression (CreateSubtraction x2 x1) = .negative (.valueUnknown m) := by
  rcases hn1 : norm x1 with _ | p1
  · rw [SimplifyExpression_cnc_of_none hn1] at h1
    exact SENode.noConfusion h1
  rcases hn2 : norm x2 with _ | p2
  · rw [SimplifyExpression_cnc_of_none hn2] at h2
    exact SENode.noConfusion h2
  rw [SimplifyExpression_eq_of_norm hn1] at h1
  rw [SimplifyExpression_eq_of_norm hn2] at h2
  have hw1 := norm_wf x1 p1 hn1
  have hw2 := norm_wf x2 p2 hn2
  obtain ⟨c1, t1, ls1⟩ := p1
  obtain ⟨c2, t2, ls2⟩ := p2
  obtain ⟨cl1, r1, hls1, hcN1, ho1⟩ := reify_rec_inv hw1 h1
  obtain ⟨cl2, r2, hls2, hcN2, ho2⟩ := reify_rec_inv hw2 h2
  replace hls1 : ls1 = (L, cl1) :: r1 := hls1
  replace hls2 : ls2 = (L, cl2) :: r2 := hls2
  subst hls1
  subst hls2
  replace ho1 : o1 = reify ⟨c1, t1, r1⟩ := ho1
  replace ho2 : o2 = reify ⟨c2, t2, r2⟩ := ho2
  have hwl1 : WLin cl1 := (hw1.2.2.1 (L, cl1) (by simp)).1
  have hwl2 : WLin cl2 := (hw2.2.2.1 (L, cl2) (by simp)).1
  have hcl : cl1 = cl2 := by
    have e1 : norm cN = some ⟨cl1.c, cl1.ts, []⟩ := by
      rw [hcN1]
      exact reifyLin_norm hwl1
    have e2 : norm cN = some ⟨cl2.c, cl2.ts, []⟩ := by
      rw [hcN2]
      exact reifyLin_norm hwl2
    rw [e1] at e2
    injection e2 with e3
    obtain ⟨a1, b1⟩ := cl1
    obtain ⟨a2, b2⟩ := cl2
    simp only [Poly.mk.injEq] at e3
    rw [Lin.mk.injEq]
    exact ⟨e3.1, e3.2.1⟩
  subst hcl
  have hq1 : WP ⟨c1, t1, r1⟩ := WP_drop_loop hw1
  have hq2 : WP ⟨c2, t2, r2⟩ := WP_drop_loop hw2
  have hno1 : norm o1 = some ⟨c1, t1, r1⟩ := by rw [ho1]; exact reify_norm hq1
  have hno2 : norm o2 = some ⟨c2, t2, r2⟩ := by rw [ho2]; exact reify_norm hq2
  have hnd : norm (CreateSubtraction o1 o2) =
      some (addPoly ⟨c1, t1, r1⟩ (scalePoly (-1) ⟨c2, t2, r2⟩)) := by
    rw [show CreateSubtraction o1 o2 = .add [o1, .negative o2] from rfl,
      norm_add_pair hno1 (norm_negative hno2)]
  rw [SimplifyExpression_eq_of_norm hnd] at hd
  have hD := reify_vu_inv (addPoly_wf hq1 (scalePoly_wf hq2 (-1))) hd
  constructor
  · rw [show CreateSubtraction x1 x2 = .add [x1, .negative x2] from rfl,
      SimplifyExpression_eq_of_norm (norm_add_pair hn1 (norm_negative hn2)),
      subPoly_drop_rec hw1 hw2, hD]
    rfl
  · rw [show CreateSubtraction x2 x1 = .add [x2, .negative x1] from rfl,
      SimplifyExpression_eq_of_norm (norm_add_pair hn2 (norm_negative hn1)),
      subPoly_drop_rec hw2 hw1, subswapPoly hq1 hq2, hD]
    rfl

/-- C10 witness: in the SimplifyInductionsAndLoads test, `[i+2N]` and
`[i+N]` simplify to recurrences over loop 23 with the identical coefficient
Constant (-1); their offsets 2N and N subtract to the bare ValueUnknown N,
the whole difference simplifies to that node, and the inverse to its
Negative. -/
theorem C10_recurrence_collapse_witness :
    SimplifyExpression (AnalyzeInstruction progInductionsAndLoads 20 33) =
        .recurrent 23 (.constant (-1)) (.multiply [.constant 2, .valueUnknown 31]) ∧
      SimplifyExpression (AnalyzeInstruction progInductionsAndLoads 20 35) =
        .recurrent 23 (.constant (-1)) (.valueUnknown 31) ∧
      SimplifyExpression (CreateSubtraction
        (.multiply [.constant 2, .valueUnknown 31]) (.valueUnknown 31)) =
        .valueUnknown 31 ∧
      SimplifyExpression (CreateSubtraction (AnalyzeInstruction progInductionsAndLoads 20 33)
        (AnalyzeInstruction progInductionsAndLoads 20 35)) = .valueUnknown 31 ∧
      SimplifyExpression (CreateSubtraction (AnalyzeInstruction progInductionsAndLoads 20 35)
        (AnalyzeInstruction progInductionsAndLoads 20 33)) =
        .negative (.valueUnknown 31) :=
  by
  have h1 : SimplifyExpression (AnalyzeInstruction progInductionsAndLoads 20 33) =
      .recurrent 23 (.constant (-1)) (.multiply [.constant 2, .valueUnknown 31]) := rfl
  have h2 : SimplifyExpression (AnalyzeInstruction progInductionsAndLoads 20 35) =
      .recurrent 23 (.constant (-1)) (.valueUnknown 31) := rfl
  have h3 : SimplifyExpression (CreateSubtraction
      (.multiply [.constant 2, .valueUnknown 31]) (.valueUnknown 31)) =
      .valueUnknown 31 := rfl
  exact ⟨h1, h2, h3, (C10_recurrence_collapse h1 h2 h3).1,
    (C10_recurrence_collapse h1 h2 h3).2⟩

end SEModel
